import Mathlib

/-!
Verification of the placeholder-resolution engine of the legal-document
assistant. The Python sources (backend/document_handler.py,
backend/llm_handler.py, backend/main.py) are shallowly embedded as
executable Lean definitions over `List Char` texts, and the specified
properties are proved about those definitions.
-/

/-- Document text, modelled as a list of characters. -/
abbrev Text := List Char

/-- Characters treated as whitespace by Python's `str.strip` / `str.split`. -/
def isPyWS (c : Char) : Bool :=
  c = ' ' ∨ c = '\t' ∨ c = '\n' ∨ c = '\r' ∨ c = '\x0b' ∨ c = '\x0c'

/-- Python `str.strip()`: drop leading and trailing whitespace. -/
def pyStrip (t : Text) : Text :=
  ((t.dropWhile isPyWS).reverse.dropWhile isPyWS).reverse

/-- Python `str.lower()` (ASCII case folding, as used by the sources). -/
def pyLower (t : Text) : Text := t.map Char.toLower

/-- Python `str.split()`: split on whitespace runs, discarding empty pieces. -/
def pySplit (t : Text) : List Text :=
  (t.splitOnP isPyWS).filter (· ≠ [])

/-- Python's `in` operator on strings: substring containment. -/
def isSubstr (pat t : Text) : Bool :=
  t.tails.any (fun s => pat.isPrefixOf s)

/-- A `[Placeholder]` record as built by `find_placeholders`
(backend/document_handler.py). -/
structure Placeholder where
  name : Text
  context : Text
  filled : Bool
  value : Option Text
  typ : Text
  description : Text
deriving DecidableEq, Repr

/-! ## Type/Name Inference Engine (backend/document_handler.py) -/

/-- The `type_patterns` keyword table of `infer_placeholder_type`
(document_handler.py lines 25-53), in source order. -/
def type_patterns : List (Text × List Text) :=
  [ ("currency".toList,
      ["amount".toList, "price".toList, "cost".toList, "fee".toList,
       "payment".toList, "paid".toList, "invest".toList, "purchase".toList,
       "dollar".toList, "salary".toList, "sum".toList, "total".toList,
       "value".toList, "rate".toList, "$".toList, "thousand".toList]),
    ("date".toList,
      ["date".toList, "when".toList, "day".toList, "month".toList,
       "year".toList, "time".toList, "period".toList, "until".toList,
       "from".toList, "january".toList, "february".toList, "march".toList,
       "april".toList, "may".toList, "june".toList, "july".toList,
       "august".toList, "september".toList, "october".toList,
       "november".toList, "december".toList, "20".toList, "2024".toList,
       "2025".toList]),
    ("person_name".toList,
      ["investor".toList, "founder".toList, "director".toList,
       "officer".toList, "partner".toList, "representative".toList,
       "mr".toList, "ms".toList, "dr".toList, "attorney".toList,
       "signatory".toList, "member".toList, "person".toList,
       "person\x27s".toList]),
    ("company_name".toList,
      ["company".toList, "corporation".toList, "corp".toList, "inc".toList,
       "llc".toList, "ltd".toList, "lp".toList, "entity".toList,
       "organization".toList, "business".toList, "firm".toList,
       "group".toList, "enterprise".toList, "venture".toList]),
    ("address".toList,
      ["address".toList, "street".toList, "city".toList, "state".toList,
       "zip".toList, "zipcode".toList, "road".toList, "avenue".toList,
       "boulevard".toList, "drive".toList, "lane".toList, "location".toList,
       "place".toList, "building".toList]),
    ("email".toList,
      ["email".toList, "mail".toList, "contact".toList, "@".toList,
       ".com".toList, ".org".toList, ".net".toList, ".edu".toList]),
    ("phone".toList,
      ["phone".toList, "number".toList, "telephone".toList, "mobile".toList,
       "cell".toList, "contact".toList, "(".toList, ")".toList]) ]

/-- Per-type keyword-hit counts of `infer_placeholder_type`: each keyword
contributes 1 when it occurs as a substring of the combined text. -/
def typeScores (combined : Text) : List (Text × Nat) :=
  type_patterns.map (fun p => (p.1, p.2.countP (fun kw => isSubstr kw combined)))

/-- Python `max(iterable, key=f)`: the first element attaining the maximal
key (later elements replace the current best only when strictly greater). -/
def pyMaxBy (f : α → Nat) (x : α) (xs : List α) : α :=
  xs.foldl (fun best y => if f y > f best then y else best) x

/-- `infer_placeholder_type` (document_handler.py lines 14-69): score each
candidate type by keyword hits on `(name + " " + context).lower()`, return
the argmax type if some score is positive, else `"text"`. -/
def infer_placeholder_type (placeholder_name context : Text) : Text :=
  let combined := pyLower (placeholder_name ++ (" ".toList ++ context))
  let scores := typeScores combined
  match scores with
  | [] => "text".toList
  | s :: ss =>
    if ((s :: ss).map Prod.snd).foldl max 0 > 0 then
      (pyMaxBy Prod.snd s ss).1
    else "text".toList

/-! ## Match Scorer (backend/llm_handler.py) -/

/-- The `type_keywords` table of `calculate_match_score`
(llm_handler.py lines 79-88), in source order; note the duplicated
`january`/`february` entries of the `date` list are kept verbatim. -/
def type_keywords : List (Text × List Text) :=
  [ ("currency".toList,
      ["dollar".toList, "amount".toList, "$".toList, "cost".toList,
       "price".toList, "fee".toList, "payment".toList, "paid".toList,
       "invest".toList]),
    ("date".toList,
      ["date".toList, "when".toList, "day".toList, "month".toList,
       "year".toList, "/".toList, "-".toList, "january".toList,
       "february".toList, "march".toList, "2024".toList, "2025".toList,
       "2023".toList, "january".toList, "february".toList,
       "january 1".toList, "dec".toList, "nov".toList]),
    ("person_name".toList,
      ["name".toList, "person".toList, "mr".toList, "ms".toList,
       "john".toList, "jane".toList, "smith".toList, "founder".toList,
       "investor".toList]),
    ("company_name".toList,
      ["company".toList, "corp".toList, "inc".toList, "ltd".toList,
       "llc".toList, "organization".toList, "business".toList,
       "group".toList, "co".toList]),
    ("address".toList,
      ["address".toList, "street".toList, "city".toList, "state".toList,
       "zip".toList, "road".toList, "ave".toList, "blvd".toList,
       "123".toList, "ny".toList, "ca".toList]),
    ("email".toList,
      ["email".toList, "contact".toList, "@".toList, ".com".toList,
       ".org".toList, ".net".toList]),
    ("phone".toList,
      ["phone".toList, "number".toList, "call".toList, "contact".toList,
       "(".toList, ")".toList, "cell".toList, "mobile".toList]) ]

/-- Association-list lookup mirroring Python's `dict.get(key)` access on a
literal dict (first matching key wins; the literals here have unique keys). -/
def alistFind (k : Text) : List (Text × α) → Option α
  | [] => none
  | (k', v) :: rest => if k' = k then some v else alistFind k rest

/-- `calculate_match_score` (llm_handler.py lines 48-103). The Python
float score is always a sum of integer increments, so it is modelled
exactly as a natural number. -/
def calculate_match_score (user_text : Text) (p : Placeholder) : Nat :=
  let user_text_lower := pyLower user_text
  let placeholder_name := pyLower p.name
  let placeholder_desc := pyLower p.description
  let placeholder_type := pyLower p.typ
  let s0 : Nat := if isSubstr placeholder_name user_text_lower then 100 else 0
  let s1 := (pySplit placeholder_name).foldl
    (fun acc part =>
      if part.length > 2 ∧ isSubstr part user_text_lower then acc + 25 else acc)
    s0
  let s2 :=
    match alistFind placeholder_type type_keywords with
    | none => s1
    | some kws =>
      if placeholder_type = [] then s1
      else kws.foldl
        (fun acc kw => if isSubstr kw user_text_lower then acc + 15 else acc) s1
  (pySplit placeholder_desc).foldl
    (fun acc w =>
      if w.length > 3 ∧ isSubstr w user_text_lower then acc + 5 else acc)
    s2

/-- One `scores[placeholder['name']] = (placeholder, score)` update of a
Python dict: replace in place if the key is present, else append. -/
def dictPut (d : List (Text × (Placeholder × Nat))) (k : Text)
    (v : Placeholder × Nat) : List (Text × (Placeholder × Nat)) :=
  if d.any (fun e => e.1 = k) then
    d.map (fun e => if e.1 = k then (e.1, v) else e)
  else d ++ [(k, v)]

/-- The `scores` dict built by `find_best_placeholder_match`
(llm_handler.py lines 132-136). -/
def buildScores (user_input : Text) (ps : List Placeholder) :
    List (Text × (Placeholder × Nat)) :=
  ps.foldl (fun d p => dictPut d p.name (p, calculate_match_score user_input p)) []

/-- `find_best_placeholder_match` (llm_handler.py lines 106-146): empty
list gives none, a single candidate is returned with confidence 1.0,
otherwise the dict-backed max over scores with `min(score/100, 1.0)`. -/
def find_best_placeholder_match (user_input : Text)
    (unfilled_placeholders : List Placeholder) : Option (Placeholder × ℚ) :=
  match unfilled_placeholders with
  | [] => none
  | [p] => some (p, 1)
  | p :: ps =>
    match buildScores user_input (p :: ps) with
    | [] => none
    | e :: es =>
      let best := (pyMaxBy (fun x => x.2.2) e es).2
      some (best.1, min ((best.2 : ℚ) / 100) 1)

/-! ## Theorems: C8 -/

/-- C8: the Match Scorer applied to an empty candidate list returns none,
and applied to a single-candidate list returns that candidate with
confidence `1.0`, regardless of the utterance. -/
theorem match_scorer_empty_and_singleton (user_input : Text) (p : Placeholder) :
    find_best_placeholder_match user_input [] = none ∧
    find_best_placeholder_match user_input [p] = some (p, 1) := by
  exact ⟨rfl, rfl⟩

/-! ## Helper lemmas about `pyMaxBy` and counting folds -/

theorem pyMaxBy_mem (f : α → Nat) (x : α) (xs : List α) :
    pyMaxBy f x xs = x ∨ pyMaxBy f x xs ∈ xs := by
  induction xs generalizing x with
  | nil => left; rfl
  | cons y ys ih =>
    simp only [pyMaxBy, List.foldl_cons]
    by_cases h : f y > f x
    · simp only [if_pos h]
      rcases ih y with h' | h'
    -- ih at the new accumulator
      · right; rw [pyMaxBy] at h'; rw [h']; exact List.mem_cons_self _ _
      · right; rw [pyMaxBy] at h'; exact List.mem_cons_of_mem _ h'
    · simp only [if_neg h]
      rcases ih x with h' | h'
      · left; rw [pyMaxBy] at h'; exact h'
      · right; rw [pyMaxBy] at h'; exact List.mem_cons_of_mem _ h'

theorem pyMaxBy_le (f : α → Nat) (x : α) (xs : List α) :
    f x ≤ f (pyMaxBy f x xs) ∧ ∀ y ∈ xs, f y ≤ f (pyMaxBy f x xs) := by
  induction xs generalizing x with
  | nil => exact ⟨Nat.le_refl _, by intro y hy; cases hy⟩
  | cons y ys ih =>
    simp only [pyMaxBy, List.foldl_cons]
    by_cases h : f y > f x
    · simp only [if_pos h]
      have hih := ih y
      rw [pyMaxBy] at hih
      refine ⟨Nat.le_trans (Nat.le_of_lt h) hih.1, ?_⟩
      intro z hz
      rcases List.mem_cons.mp hz with rfl | hz
      · exact hih.1
      · exact hih.2 z hz
    · simp only [if_neg h]
      have hih := ih x
      rw [pyMaxBy] at hih
      refine ⟨hih.1, ?_⟩
      intro z hz
      rcases List.mem_cons.mp hz with rfl | hz
      · exact Nat.le_trans (Nat.le_of_not_lt h) hih.1
      · exact hih.2 z hz

theorem pyMaxBy_map (g : α → β) (f : β → Nat) (x : α) (xs : List α) :
    pyMaxBy f (g x) (xs.map g) = g (pyMaxBy (fun a => f (g a)) x xs) := by
  induction xs generalizing x with
  | nil => rfl
  | cons y ys ih =>
    simp only [pyMaxBy, List.map_cons, List.foldl_cons]
    by_cases h : f (g y) > f (g x)
    · simp only [if_pos h]; exact ih y
    · simp only [if_neg h]; exact ih x

theorem foldl_add_count (P : α → Bool) (k : Nat) :
    ∀ (l : List α) (acc : Nat),
      l.foldl (fun a x => if P x then a + k else a) acc = acc + k * l.countP P
  | [], acc => by simp
  | x :: xs, acc => by
    simp only [List.foldl_cons, List.countP_cons, foldl_add_count P k xs]
    by_cases h : P x
    · simp only [h, if_true, if_pos]
      ring
    · simp [h]

theorem le_foldl_max : ∀ (l : List Nat) (a : Nat),
    a ≤ l.foldl max a ∧ ∀ y ∈ l, y ≤ l.foldl max a
  | [], a => ⟨Nat.le_refl _, by intro y hy; cases hy⟩
  | b :: l, a => by
    have h := le_foldl_max l (max a b)
    refine ⟨Nat.le_trans (Nat.le_max_left a b) h.1, ?_⟩
    intro y hy
    rcases List.mem_cons.mp hy with rfl | hy
    · exact Nat.le_trans (Nat.le_max_right a y) h.1
    · exact h.2 y hy

theorem foldl_max_pos : ∀ (l : List Nat) (a : Nat),
    0 < l.foldl max a → 0 < a ∨ ∃ y ∈ l, 0 < y
  | [], a => fun h => Or.inl h
  | b :: l, a => by
    intro h
    rcases foldl_max_pos l (max a b) h with h' | ⟨y, hy, hy'⟩
    · rcases Nat.eq_zero_or_pos a with ha | ha
      · rcases Nat.eq_zero_or_pos b with hb | hb
        · subst ha; subst hb; simp at h'
        · exact Or.inr ⟨b, List.mem_cons_self _ _, hb⟩
      · exact Or.inl ha
    · right; exact ⟨y, List.mem_cons_of_mem _ hy, hy'⟩

/-! ## Theorems: C6 -/

/-- C6: the deterministic inference strategy scores each candidate type by
counting keyword hits in the lowercased `name + " " + context`, returns a
type attaining the maximal positive score, and returns `"text"` when all
type scores are zero. -/
theorem infer_type_argmax (name ctx : Text) :
    ((typeScores (pyLower (name ++ (" ".toList ++ ctx)))).all (fun s => s.2 = 0) →
      infer_placeholder_type name ctx = "text".toList) ∧
    (∀ s ∈ typeScores (pyLower (name ++ (" ".toList ++ ctx))), 0 < s.2 →
      ∃ b ∈ typeScores (pyLower (name ++ (" ".toList ++ ctx))),
        infer_placeholder_type name ctx = b.1 ∧
        ∀ s' ∈ typeScores (pyLower (name ++ (" ".toList ++ ctx))), s'.2 ≤ b.2) := by
  set combined := pyLower (name ++ (" ".toList ++ ctx)) with hc
  have hlen : (typeScores combined).length = 7 := by
    simp [typeScores, type_patterns]
  cases hsc : typeScores combined with
  | nil => rw [hsc] at hlen; cases hlen
  | cons s ss =>
    constructor
    · intro hall
      have hall' := List.all_eq_true.mp hall
      rw [infer_placeholder_type]
      rw [← hc, hsc]
      have hz : ∀ y ∈ (s :: ss).map Prod.snd, y = 0 := by
        intro y hy
        rcases List.mem_map.mp hy with ⟨e, he, rfl⟩
        exact of_decide_eq_true (hall' e (hsc ▸ he))
      have : ¬ 0 < ((s :: ss).map Prod.snd).foldl max 0 := by
        intro hpos
        rcases foldl_max_pos _ _ hpos with h0 | ⟨y, hy, hy'⟩
        · exact Nat.lt_irrefl 0 h0
        · rw [hz y hy] at hy'; exact Nat.lt_irrefl 0 hy'
      simp only [gt_iff_lt, this, if_false]
    · intro s₀ hs₀ hpos
      have hfold : 0 < ((s :: ss).map Prod.snd).foldl max 0 := by
        have hmem : s₀.2 ∈ (s :: ss).map Prod.snd :=
          List.mem_map.mpr ⟨s₀, hsc ▸ hs₀, rfl⟩
        have := (le_foldl_max ((s :: ss).map Prod.snd) 0).2 _ hmem
        omega
      refine ⟨pyMaxBy Prod.snd s ss, ?_, ?_, ?_⟩
      · rcases pyMaxBy_mem Prod.snd s ss with h | h
        · rw [h]; exact List.mem_cons_self _ _
        · exact List.mem_cons_of_mem _ h
      · rw [infer_placeholder_type, ← hc, hsc]
        simp only [gt_iff_lt, hfold, if_true]
      · intro s' hs'
        rcases List.mem_cons.mp hs' with rfl | hs'
        · exact (pyMaxBy_le Prod.snd s' ss).1
        · exact (pyMaxBy_le Prod.snd s ss).2 _ hs'

/-- Witness for C6 at concrete inputs: a name with no keyword hits infers
`"text"`, and `"amount"` attains a positive maximal score. -/
theorem infer_type_argmax_witness :
    infer_placeholder_type "q".toList "".toList = "text".toList ∧
    ∃ b ∈ typeScores (pyLower ("amount".toList ++ (" ".toList ++ "".toList))),
      infer_placeholder_type "amount".toList "".toList = b.1 ∧
      ∀ s' ∈ typeScores (pyLower ("amount".toList ++ (" ".toList ++ "".toList))),
        s'.2 ≤ b.2 := by
  constructor
  · exact (infer_type_argmax "q".toList "".toList).1 (by decide)
  · exact (infer_type_argmax "amount".toList "".toList).2
      ("currency".toList, 1) (by decide) (by decide)

/-! ## Characterizing the scores dict of `find_best_placeholder_match` -/

theorem dictPut_of_not_mem (d : List (Text × (Placeholder × Nat))) (k : Text)
    (v : Placeholder × Nat) (h : ∀ e ∈ d, e.1 ≠ k) :
    dictPut d k v = d ++ [(k, v)] := by
  have hany : d.any (fun e => e.1 = k) = false := by
    rw [List.any_eq_false]
    intro e he
    simpa using h e he
  simp [dictPut, hany]

theorem foldl_dictPut_eq (u : Text) (ps : List Placeholder) :
    ∀ d : List (Text × (Placeholder × Nat)),
      (∀ p ∈ ps, ∀ e ∈ d, e.1 ≠ p.name) →
      (ps.map Placeholder.name).Nodup →
      ps.foldl (fun d p => dictPut d p.name (p, calculate_match_score u p)) d
        = d ++ ps.map (fun p => (p.name, (p, calculate_match_score u p))) := by
  induction ps with
  | nil => intro d _ _; simp
  | cons p ps ih =>
    intro d hd hnd
    rw [List.map_cons, List.nodup_cons] at hnd
    rw [List.foldl_cons,
      dictPut_of_not_mem d p.name _ (fun e he => hd p (List.mem_cons_self _ _) e he),
      ih (d ++ [(p.name, (p, calculate_match_score u p))]) ?_ hnd.2]
    · simp
    · intro q hq e he
      rcases List.mem_append.mp he with he | he
      · exact hd q (List.mem_cons_of_mem _ hq) e he
      · rcases List.mem_singleton.mp he with rfl
        intro hcon
        replace hcon : p.name = q.name := hcon
        exact hnd.1 (by rw [hcon]; exact List.mem_map.mpr ⟨q, hq, rfl⟩)

theorem buildScores_cons (u : Text) (c : Placeholder) (cs : List Placeholder)
    (hnd : ((c :: cs).map Placeholder.name).Nodup) :
    buildScores u (c :: cs)
      = (c.name, (c, calculate_match_score u c))
          :: cs.map (fun p => (p.name, (p, calculate_match_score u p))) := by
  have := foldl_dictPut_eq u (c :: cs) [] (by intro p _ e he; cases he) hnd
  simpa [buildScores] using this

theorem pyMaxBy_scores (u : Text) (c : Placeholder) (cs : List Placeholder) :
    pyMaxBy (fun x => x.2.2) (c.name, (c, calculate_match_score u c))
      (cs.map (fun p => (p.name, (p, calculate_match_score u p))))
    = ((pyMaxBy (calculate_match_score u) c cs).name,
       (pyMaxBy (calculate_match_score u) c cs,
        calculate_match_score u (pyMaxBy (calculate_match_score u) c cs))) :=
  pyMaxBy_map (fun p => (p.name, (p, calculate_match_score u p)))
    (fun x => x.2.2) c cs

theorem find_best_two_or_more (u : Text) (c c' : Placeholder)
    (rest : List Placeholder)
    (hnd : ((c :: c' :: rest).map Placeholder.name).Nodup) :
    find_best_placeholder_match u (c :: c' :: rest)
      = some (pyMaxBy (calculate_match_score u) c (c' :: rest),
          min ((calculate_match_score u
            (pyMaxBy (calculate_match_score u) c (c' :: rest)) : ℚ) / 100) 1) := by
  have hb : buildScores u (c :: c' :: rest)
      = (c.name, (c, calculate_match_score u c))
          :: (c' :: rest).map (fun p => (p.name, (p, calculate_match_score u p))) :=
    buildScores_cons u c (c' :: rest) hnd
  simp only [find_best_placeholder_match, hb, pyMaxBy_scores]

theorem pyMaxBy_all_zero (f : α → Nat) (x : α) (xs : List α)
    (hx : f x = 0) (hall : ∀ y ∈ xs, f y = 0) : pyMaxBy f x xs = x := by
  induction xs generalizing x with
  | nil => rfl
  | cons y ys ih =>
    simp only [pyMaxBy, List.foldl_cons]
    have hy := hall y (List.mem_cons_self _ _)
    have : ¬ f y > f x := by omega
    simp only [if_neg this]
    exact ih x hx (fun z hz => hall z (List.mem_cons_of_mem _ hz))

theorem foldl_add_countP (p : α → Prop) [DecidablePred p] (k : Nat) :
    ∀ (l : List α) (acc : Nat),
      l.foldl (fun a x => if p x then a + k else a) acc
        = acc + k * l.countP (fun x => decide (p x)) := by
  intro l
  induction l with
  | nil => intro acc; simp
  | cons x xs ih =>
    intro acc
    simp only [List.foldl_cons, List.countP_cons, ih]
    by_cases h : p x
    · have hd : decide (p x) = true := decide_eq_true h
      rw [if_pos h, hd, if_pos rfl]
      ring
    · have hd : decide (p x) = false := decide_eq_false h
      rw [if_neg h, hd]
      simp

/-! ## Spec-side Match Scorer definitions -/

/-- Modelled from the spec's words (§4.3, steps 1-5): none on an empty
candidate list; a single candidate with confidence 1.0; otherwise the
candidate with the maximal score, ties broken by list (extraction) order
with the first winning, and confidence `min(score/100, 1.0)`. -/
def scorer_spec (utterance : Text) (candidates : List Placeholder) :
    Option (Placeholder × ℚ) :=
  match candidates with
  | [] => none
  | [c] => some (c, 1)
  | c :: cs =>
    let best := pyMaxBy (calculate_match_score utterance) c cs
    some (best, min ((calculate_match_score utterance best : ℚ) / 100) 1)

/-- Modelled from the claim's words for C2: the same additive match score
but with the `+15` keyword component drawn from the deterministic inference
strategy's keyword sets (`type_patterns`), as the claim asserts. -/
def claimed_match_score (user_text : Text) (p : Placeholder) : Nat :=
  let user_text_lower := pyLower user_text
  let placeholder_name := pyLower p.name
  let placeholder_desc := pyLower p.description
  let placeholder_type := pyLower p.typ
  let s0 : Nat := if isSubstr placeholder_name user_text_lower then 100 else 0
  let s1 := (pySplit placeholder_name).foldl
    (fun acc part =>
      if part.length > 2 ∧ isSubstr part user_text_lower then acc + 25 else acc)
    s0
  let s2 :=
    match alistFind placeholder_type type_patterns with
    | none => s1
    | some kws =>
      if placeholder_type = [] then s1
      else kws.foldl
        (fun acc kw => if isSubstr kw user_text_lower then acc + 15 else acc) s1
  (pySplit placeholder_desc).foldl
    (fun acc w =>
      if w.length > 3 ∧ isSubstr w user_text_lower then acc + 5 else acc)
    s2

/-- Concrete candidate separating the scorer's keyword table from the
inference engine's keyword table. -/
def scorerCexPh : Placeholder :=
  { name := "z".toList, context := [], filled := false, value := none,
    typ := "currency".toList, description := [] }

/-! ## Theorems: C2, C10 -/

/-- Counterexample for C2: on the utterance `"purchase"` and a currency
candidate, the code's Match Scorer scores 0, while the scoring described
by the claim (keyword sets shared with the inference strategy, which
contain `"purchase"` for `currency`) scores 15 — the scorer does not use
the inference strategy's keyword sets. -/
theorem match_scorer_keyword_sets_cex :
    calculate_match_score "purchase".toList scorerCexPh = 0 ∧
    claimed_match_score "purchase".toList scorerCexPh = 15 := by
  constructor
  · decide
  · decide

/-- C2 (amended): the Match Scorer computes each candidate's score
additively over the lowercased utterance — +100 for a full-name substring
hit, +25 per name token of length > 2 found, +15 per entry of the scorer's
own per-type keyword table (which differs from the inference strategy's
sets; duplicated entries count each time), +5 per description word of
length > 3 found — then selects the candidate with the maximum score,
ties broken by list order (first in document order wins), with confidence
`min(score/100, 1.0)`. -/
theorem match_scorer_selection (u : Text) (cs : List Placeholder)
    (hnd : (cs.map Placeholder.name).Nodup) :
    find_best_placeholder_match u cs = scorer_spec u cs ∧
    ∀ p : Placeholder, calculate_match_score u p =
      (if isSubstr (pyLower p.name) (pyLower u) then 100 else 0)
      + 25 * ((pySplit (pyLower p.name)).countP
          (fun part => decide (part.length > 2 ∧ isSubstr part (pyLower u))))
      + 15 * (((alistFind (pyLower p.typ) type_keywords).getD []).countP
          (fun kw => isSubstr kw (pyLower u)))
      + 5 * ((pySplit (pyLower p.description)).countP
          (fun w => decide (w.length > 3 ∧ isSubstr w (pyLower u)))) := by
  constructor
  · match cs, hnd with
    | [], _ => rfl
    | [c], _ => rfl
    | c :: c' :: rest, hnd =>
      rw [find_best_two_or_more u c c' rest hnd]
      rfl
  · intro p
    simp only [calculate_match_score]
    rw [foldl_add_countP, foldl_add_countP]
    cases halist : alistFind (pyLower p.typ) type_keywords with
    | none =>
      simp only [halist, Option.getD_none, List.countP_nil, Nat.mul_zero,
        Nat.add_zero]
    | some kws =>
      have htyp : pyLower p.typ ≠ [] := by
        intro hnil
        rw [hnil] at halist
        have hfind : alistFind ([] : Text) type_keywords = none := by decide
        rw [hfind] at halist
        cases halist
      simp only [halist, Option.getD_some, if_neg htyp]
      rw [foldl_add_countP]
      have hcnt : (kws.countP fun x => decide (isSubstr x (pyLower u) = true))
          = kws.countP fun kw => isSubstr kw (pyLower u) := by
        refine List.countP_congr ?_
        intro x _
        cases hx : isSubstr x (pyLower u) <;> simp [hx]
      rw [hcnt]

/-- C10: on any candidate list with pairwise-distinct names, the Match
Scorer returns some candidate whenever the list is non-empty, and when
two or more candidates all score zero it returns the first candidate in
list order with confidence 0.0. -/
theorem match_scorer_never_none (u : Text) (cs : List Placeholder)
    (hnd : (cs.map Placeholder.name).Nodup) :
    (cs ≠ [] → (find_best_placeholder_match u cs).isSome = true) ∧
    (∀ c cs', cs = c :: cs' → cs' ≠ [] →
      (∀ p ∈ cs, calculate_match_score u p = 0) →
      find_best_placeholder_match u cs = some (c, 0)) := by
  constructor
  · intro hne
    cases cs with
    | nil => exact absurd rfl hne
    | cons c cs' =>
      cases cs' with
      | nil => rfl
      | cons c' rest =>
        rw [find_best_two_or_more u c c' rest hnd]
        rfl
  · rintro c cs' rfl hne hz
    cases cs' with
    | nil => exact absurd rfl hne
    | cons c' rest =>
      rw [find_best_two_or_more u c c' rest hnd]
      have hbest : pyMaxBy (calculate_match_score u) c (c' :: rest) = c := by
        refine pyMaxBy_all_zero _ _ _ (hz c (List.mem_cons_self _ _)) ?_
        intro y hy
        exact hz y (List.mem_cons_of_mem _ hy)
      rw [hbest, hz c (List.mem_cons_self _ _)]
      norm_num

/-- Witness for C2's amended theorem at a concrete input: two candidates,
the second mentioned by name in the utterance; the code scorer and the
spec-side selection agree. -/
theorem match_scorer_selection_witness :
    find_best_placeholder_match "the company is abc".toList
        [⟨"date".toList, [], false, none, "date".toList, []⟩,
         ⟨"company".toList, [], false, none, "company_name".toList, []⟩]
      = scorer_spec "the company is abc".toList
        [⟨"date".toList, [], false, none, "date".toList, []⟩,
         ⟨"company".toList, [], false, none, "company_name".toList, []⟩] :=
  (match_scorer_selection "the company is abc".toList _ (by decide)).1

/-- Witness for C10 at a concrete input: two candidates sharing no signal
with the utterance; the first is returned with confidence 0. -/
theorem match_scorer_never_none_witness :
    find_best_placeholder_match "qq".toList
        [⟨"xy".toList, [], false, none, [], []⟩,
         ⟨"zw".toList, [], false, none, [], []⟩]
      = some (⟨"xy".toList, [], false, none, [], []⟩, 0) :=
  (match_scorer_never_none "qq".toList _ (by decide)).2
    ⟨"xy".toList, [], false, none, [], []⟩ [⟨"zw".toList, [], false, none, [], []⟩]
    rfl (by decide) (by decide)

/-! ## Placeholder Extractor (backend/document_handler.py) -/

/-- Fuel-indexed scan of `re.finditer(r'\x5b([^\x5d]+)\x5d', text)` used by
`find_placeholders`: at each position, a `[` followed by a non-empty run of
non-`]` characters and then a `]` yields a match whose group is that run;
the scan resumes after the match. The fuel (any bound on the text length)
only makes the recursion structural. -/
def scanAux : Nat → Text → List Text
  | 0, _ => []
  | _ + 1, [] => []
  | fuel + 1, c :: rest =>
    if c = '[' then
      if (rest.takeWhile (fun ch => ch ≠ ']')) ≠ [] ∧
          (rest.takeWhile (fun ch => ch ≠ ']')).length < rest.length then
        rest.takeWhile (fun ch => ch ≠ ']')
          :: scanAux fuel (rest.drop ((rest.takeWhile (fun ch => ch ≠ ']')).length + 1))
      else scanAux fuel rest
    else scanAux fuel rest

/-- The bracketed groups of a text, in regex match order. -/
def scanSpans (t : Text) : List Text := scanAux t.length t

/-- The same scan, also returning each match's start offset. -/
def scanPosAux : Nat → Text → Nat → List (Nat × Text)
  | 0, _, _ => []
  | _ + 1, [], _ => []
  | fuel + 1, c :: rest, i =>
    if c = '[' then
      if (rest.takeWhile (fun ch => ch ≠ ']')) ≠ [] ∧
          (rest.takeWhile (fun ch => ch ≠ ']')).length < rest.length then
        (i, rest.takeWhile (fun ch => ch ≠ ']'))
          :: scanPosAux fuel (rest.drop ((rest.takeWhile (fun ch => ch ≠ ']')).length + 1))
              (i + (rest.takeWhile (fun ch => ch ≠ ']')).length + 2)
      else scanPosAux fuel rest (i + 1)
    else scanPosAux fuel rest (i + 1)

/-- The regex matches of a text with start offsets, in match order. -/
def scanSpansPos (t : Text) (i : Nat) : List (Nat × Text) :=
  scanPosAux t.length t i

theorem scanAux_fuel : ∀ (n fuel fuel' : Nat) (t : Text),
    t.length ≤ fuel → t.length ≤ fuel' → fuel ≤ n →
    scanAux fuel t = scanAux fuel' t := by
  intro n
  induction n with
  | zero =>
    intro fuel fuel' t h h' hn
    interval_cases fuel
    rw [Nat.le_zero] at h
    rw [List.length_eq_zero.mp h]
    cases fuel' <;> rfl
  | succ n ih =>
    intro fuel fuel' t h h' hn
    match fuel, t with
    | 0, t =>
      rw [Nat.le_zero] at h
      rw [List.length_eq_zero.mp h]
      cases fuel' <;> rfl
    | f + 1, [] => cases fuel' <;> rfl
    | f + 1, c :: rest =>
      match fuel', h' with
      | f' + 1, h' =>
        rw [scanAux, scanAux]
        simp only [List.length_cons] at h h' hn
        by_cases hc : c = '['
        · simp only [if_pos hc]
          by_cases hs : (rest.takeWhile (fun ch => ch ≠ ']')) ≠ [] ∧
              (rest.takeWhile (fun ch => ch ≠ ']')).length < rest.length
          · simp only [if_pos hs]
            have hd := List.length_drop
              ((rest.takeWhile (fun ch => ch ≠ ']')).length + 1) rest
            rw [ih f f' _ (by omega) (by omega) (by omega)]
          · simp only [if_neg hs]
            exact ih f f' rest (by omega) (by omega) (by omega)
        · simp only [if_neg hc]
          exact ih f f' rest (by omega) (by omega) (by omega)

theorem scanPosAux_fuel : ∀ (n fuel fuel' : Nat) (t : Text) (i : Nat),
    t.length ≤ fuel → t.length ≤ fuel' → fuel ≤ n →
    scanPosAux fuel t i = scanPosAux fuel' t i := by
  intro n
  induction n with
  | zero =>
    intro fuel fuel' t i h h' hn
    interval_cases fuel
    rw [Nat.le_zero] at h
    rw [List.length_eq_zero.mp h]
    cases fuel' <;> rfl
  | succ n ih =>
    intro fuel fuel' t i h h' hn
    match fuel, t with
    | 0, t =>
      rw [Nat.le_zero] at h
      rw [List.length_eq_zero.mp h]
      cases fuel' <;> rfl
    | f + 1, [] => cases fuel' <;> rfl
    | f + 1, c :: rest =>
      match fuel', h' with
      | f' + 1, h' =>
        rw [scanPosAux, scanPosAux]
        simp only [List.length_cons] at h h' hn
        by_cases hc : c = '['
        · simp only [if_pos hc]
          by_cases hs : (rest.takeWhile (fun ch => ch ≠ ']')) ≠ [] ∧
              (rest.takeWhile (fun ch => ch ≠ ']')).length < rest.length
          · simp only [if_pos hs]
            have hd := List.length_drop
              ((rest.takeWhile (fun ch => ch ≠ ']')).length + 1) rest
            rw [ih f f' _ _ (by omega) (by omega) (by omega)]
          · simp only [if_neg hs]
            exact ih f f' rest _ (by omega) (by omega) (by omega)
        · simp only [if_neg hc]
          exact ih f f' rest _ (by omega) (by omega) (by omega)

theorem scanAux_eq (fuel : Nat) (t : Text) (h : t.length ≤ fuel) :
    scanAux fuel t = scanSpans t :=
  scanAux_fuel fuel fuel t.length t h (Nat.le_refl _) (Nat.le_refl _)

theorem scanPosAux_eq (fuel : Nat) (t : Text) (i : Nat) (h : t.length ≤ fuel) :
    scanPosAux fuel t i = scanSpansPos t i :=
  scanPosAux_fuel fuel fuel t.length t i h (Nat.le_refl _) (Nat.le_refl _)

theorem scanSpans_nil : scanSpans [] = [] := rfl

theorem scanSpans_cons (c : Char) (rest : Text) :
    scanSpans (c :: rest) =
      if c = '[' then
        if (rest.takeWhile (fun ch => ch ≠ ']')) ≠ [] ∧
            (rest.takeWhile (fun ch => ch ≠ ']')).length < rest.length then
          rest.takeWhile (fun ch => ch ≠ ']')
            :: scanSpans (rest.drop ((rest.takeWhile (fun ch => ch ≠ ']')).length + 1))
        else scanSpans rest
      else scanSpans rest := by
  rw [scanSpans, List.length_cons, scanAux]
  by_cases hc : c = '['
  · simp only [if_pos hc]
    by_cases hs : (rest.takeWhile (fun ch => ch ≠ ']')) ≠ [] ∧
        (rest.takeWhile (fun ch => ch ≠ ']')).length < rest.length
    · simp only [if_pos hs]
      rw [scanAux_eq rest.length _
        (by rw [List.length_drop]; exact Nat.sub_le _ _)]
    · simp only [if_neg hs]
      rw [scanAux_eq rest.length rest (Nat.le_refl _)]
  · simp only [if_neg hc]
    rw [scanAux_eq rest.length rest (Nat.le_refl _)]

theorem scanSpansPos_nil (i : Nat) : scanSpansPos [] i = [] := rfl

theorem scanSpansPos_cons (c : Char) (rest : Text) (i : Nat) :
    scanSpansPos (c :: rest) i =
      if c = '[' then
        if (rest.takeWhile (fun ch => ch ≠ ']')) ≠ [] ∧
            (rest.takeWhile (fun ch => ch ≠ ']')).length < rest.length then
          (i, rest.takeWhile (fun ch => ch ≠ ']'))
            :: scanSpansPos (rest.drop ((rest.takeWhile (fun ch => ch ≠ ']')).length + 1))
                (i + (rest.takeWhile (fun ch => ch ≠ ']')).length + 2)
        else scanSpansPos rest (i + 1)
      else scanSpansPos rest (i + 1) := by
  rw [scanSpansPos, List.length_cons, scanPosAux]
  by_cases hc : c = '['
  · simp only [if_pos hc]
    by_cases hs : (rest.takeWhile (fun ch => ch ≠ ']')) ≠ [] ∧
        (rest.takeWhile (fun ch => ch ≠ ']')).length < rest.length
    · simp only [if_pos hs]
      rw [scanPosAux_eq rest.length _ _
        (by rw [List.length_drop]; exact Nat.sub_le _ _)]
    · simp only [if_neg hs]
      rw [scanPosAux_eq rest.length rest _ (Nat.le_refl _)]
  · simp only [if_neg hc]
    rw [scanPosAux_eq rest.length rest _ (Nat.le_refl _)]

theorem scanSpansPos_snd : ∀ (n : Nat) (t : Text), t.length ≤ n →
    ∀ i, (scanSpansPos t i).map Prod.snd = scanSpans t := by
  intro n
  induction n with
  | zero =>
    intro t ht i
    rw [List.length_eq_zero.mp (Nat.le_zero.mp ht)]
    rfl
  | succ n ih =>
    intro t ht i
    match t with
    | [] => rfl
    | c :: rest =>
      rw [scanSpansPos_cons, scanSpans_cons]
      by_cases hc : c = '['
      · simp only [if_pos hc]
        by_cases hs : (rest.takeWhile (fun ch => ch ≠ ']')) ≠ [] ∧
            (rest.takeWhile (fun ch => ch ≠ ']')).length < rest.length
        · simp only [if_pos hs, List.map_cons]
          have hd := List.length_drop
            ((rest.takeWhile (fun ch => ch ≠ ']')).length + 1) rest
          simp only [List.length_cons] at ht
          rw [ih _ (by omega)]
        · simp only [if_neg hs]
          simp only [List.length_cons] at ht
          rw [ih _ (by omega)]
      · simp only [if_neg hc]
        simp only [List.length_cons] at ht
        rw [ih _ (by omega)]

/-- The `type_descriptions` table of `find_placeholders`
(document_handler.py lines 143-152). -/
def type_descriptions : List (Text × Text) :=
  [ ("currency".toList, "Amount in dollars/currency".toList),
    ("date".toList, "Date (e.g., MM/DD/YYYY or text format)".toList),
    ("person_name".toList, "Person\x27s full name".toList),
    ("company_name".toList, "Company or organization name".toList),
    ("address".toList, "Full address".toList),
    ("email".toList, "Email address".toList),
    ("phone".toList, "Phone number".toList),
    ("text".toList, "Text value".toList) ]

/-- The placeholder dictionary built for one retained match of
`find_placeholders`: trimmed name, 150-character context window clipped
to the text bounds, inferred type, and a type-derived description. -/
def mkPlaceholder (text : Text) (start : Nat) (content : Text) : Placeholder :=
  { name := pyStrip content,
    context := pyStrip ((text.drop (start - 150)).take
      (min text.length (start + content.length + 2 + 150) - (start - 150))),
    filled := false,
    value := none,
    typ := infer_placeholder_type (pyStrip content)
      (pyStrip ((text.drop (start - 150)).take
        (min text.length (start + content.length + 2 + 150) - (start - 150)))),
    description :=
      (alistFind
        (infer_placeholder_type (pyStrip content)
          (pyStrip ((text.drop (start - 150)).take
            (min text.length (start + content.length + 2 + 150) - (start - 150)))))
        type_descriptions).getD
          ("Please provide: ".toList ++ pyLower (pyStrip content)) }

/-- The match loop of `find_placeholders` (document_handler.py lines
118-166): trim each group, skip empties, skip case-insensitive duplicates
via the `seen` set, and emit one record per retained match. -/
def findPHAux (text : Text) : List (Nat × Text) → List Text → List Placeholder
  | [], _ => []
  | (start, content) :: rest, seen =>
    if pyStrip content = [] then findPHAux text rest seen
    else if pyLower (pyStrip content) ∈ seen then findPHAux text rest seen
    else mkPlaceholder text start content
      :: findPHAux text rest (pyLower (pyStrip content) :: seen)

/-- `find_placeholders` (document_handler.py lines 100-168). -/
def find_placeholders (text : Text) : List Placeholder :=
  findPHAux text (scanSpansPos text 0) []

/-- The trimmed, non-empty bracket groups of a text, in match order. -/
def bracketNames (t : Text) : List Text :=
  ((scanSpansPos t 0).map (fun s => pyStrip s.2)).filter (· ≠ [])

/-- First-occurrence-wins deduplication on the lowercased name, relative
to an already-seen set. -/
def dedupCI : List Text → List Text → List Text
  | [], _ => []
  | n :: ns, seen =>
    if pyLower n ∈ seen then dedupCI ns seen
    else n :: dedupCI ns (pyLower n :: seen)

theorem findPHAux_names (text : Text) :
    ∀ (spans : List (Nat × Text)) (seen : List Text),
      (findPHAux text spans seen).map Placeholder.name
        = dedupCI ((spans.map (fun s => pyStrip s.2)).filter (· ≠ [])) seen := by
  intro spans
  induction spans with
  | nil => intro seen; rfl
  | cons sp rest ih =>
    intro seen
    obtain ⟨start, content⟩ := sp
    rw [findPHAux]
    by_cases hn : pyStrip content = []
    · rw [if_pos hn, ih seen]
      have hfil : (((start, content) :: rest).map
            (fun s => pyStrip s.2)).filter (· ≠ [])
          = (rest.map (fun s => pyStrip s.2)).filter (· ≠ []) := by
        simp [hn]
      rw [hfil]
    · have hfil : (((start, content) :: rest).map
            (fun s => pyStrip s.2)).filter (· ≠ [])
          = pyStrip content :: (rest.map (fun s => pyStrip s.2)).filter (· ≠ []) := by
        simp [hn]
      rw [if_neg hn, hfil, dedupCI]
      by_cases hseen : pyLower (pyStrip content) ∈ seen
      · rw [if_pos hseen, if_pos hseen, ih seen]
      · rw [if_neg hseen, if_neg hseen, List.map_cons,
          ih (pyLower (pyStrip content) :: seen)]
        rfl

theorem dedupCI_lower_nodup :
    ∀ (l seen : List Text),
      ((dedupCI l seen).map pyLower).Nodup ∧
      ∀ x ∈ dedupCI l seen, pyLower x ∉ seen := by
  intro l
  induction l with
  | nil => intro seen; exact ⟨List.nodup_nil, by intro x hx; cases hx⟩
  | cons n ns ih =>
    intro seen
    rw [dedupCI]
    by_cases h : pyLower n ∈ seen
    · rw [if_pos h]
      exact ih seen
    · rw [if_neg h, List.map_cons]
      have ihs := ih (pyLower n :: seen)
      constructor
      · rw [List.nodup_cons]
        refine ⟨?_, ihs.1⟩
        intro hmem
        rcases List.mem_map.mp hmem with ⟨x, hx, hx'⟩
        exact ihs.2 x hx (hx' ▸ List.mem_cons_self _ _)
      · intro x hx
        rcases List.mem_cons.mp hx with rfl | hx
        · exact h
        · intro hxs
          exact ihs.2 x hx (List.mem_cons_of_mem _ hxs)

theorem dedupCI_subset : ∀ (l seen : List Text), ∀ x ∈ dedupCI l seen, x ∈ l := by
  intro l
  induction l with
  | nil => intro seen x hx; cases hx
  | cons n ns ih =>
    intro seen x hx
    rw [dedupCI] at hx
    by_cases h : pyLower n ∈ seen
    · rw [if_pos h] at hx
      exact List.mem_cons_of_mem _ (ih seen x hx)
    · rw [if_neg h] at hx
      rcases List.mem_cons.mp hx with rfl | hx
      · exact List.mem_cons_self _ _
      · exact List.mem_cons_of_mem _ (ih _ x hx)

/-! ## Theorems: C3 -/

/-- C3: `find_placeholders` returns exactly one placeholder per distinct
trimmed-lowercased bracket name — the first occurrence wins and later
case-insensitive duplicates are dropped — names empty after trimming are
discarded, and the output is ordered by position of first occurrence
(the deduplicated match order of the scan). -/
theorem extract_names_dedup (text : Text) :
    (find_placeholders text).map Placeholder.name
      = dedupCI (bracketNames text) [] ∧
    ((find_placeholders text).map (fun p => pyLower p.name)).Nodup ∧
    ∀ p ∈ find_placeholders text, p.name ≠ [] := by
  have h1 : (find_placeholders text).map Placeholder.name
      = dedupCI (bracketNames text) [] :=
    findPHAux_names text (scanSpansPos text 0) []
  refine ⟨h1, ?_, ?_⟩
  · have h2 := (dedupCI_lower_nodup (bracketNames text) []).1
    have h3 : (find_placeholders text).map (fun p => pyLower p.name)
        = ((find_placeholders text).map Placeholder.name).map pyLower := by
      rw [List.map_map]
      rfl
    rw [h3, h1]
    exact h2
  · intro p hp
    have hmem : p.name ∈ (find_placeholders text).map Placeholder.name :=
      List.mem_map.mpr ⟨p, hp, rfl⟩
    rw [h1] at hmem
    have hsub := dedupCI_subset _ [] _ hmem
    rcases List.mem_filter.mp hsub with ⟨_, hne⟩
    simpa using hne

/-- Witness for C3 at a concrete text with a case-insensitive duplicate,
instantiating the membership hypothesis at each extracted placeholder. -/
theorem extract_names_dedup_witness :
    ((find_placeholders "Between [Investor] and [investor], dated [d].".toList).map
        Placeholder.name = ["Investor".toList, "d".toList]) ∧
    ∀ p ∈ find_placeholders "Between [Investor] and [investor], dated [d].".toList,
      p.name ≠ [] := by
  constructor
  · rw [(extract_names_dedup _).1]
    decide
  · exact (extract_names_dedup _).2.2

/-! ## Render (backend/document_handler.py `fill_placeholders`) -/

/-- Fuel-indexed Python `str.replace`: replace every non-overlapping
occurrence of `pat`, scanning left to right. -/
def replAux : Nat → Text → Text → Text → Text
  | 0, _, _, t => t
  | _ + 1, _, _, [] => []
  | fuel + 1, pat, v, c :: rest =>
    if pat ≠ [] ∧ pat.isPrefixOf (c :: rest) then
      v ++ replAux fuel pat v ((c :: rest).drop pat.length)
    else c :: replAux fuel pat v rest

/-- Python `text.replace(pat, v)` for non-empty `pat`. -/
def replaceAll (pat v t : Text) : Text := replAux t.length pat v t

theorem replAux_fuel : ∀ (n fuel fuel' : Nat) (pat v t : Text),
    t.length ≤ fuel → t.length ≤ fuel' → fuel ≤ n →
    replAux fuel pat v t = replAux fuel' pat v t := by
  intro n
  induction n with
  | zero =>
    intro fuel fuel' pat v t h h' hn
    interval_cases fuel
    rw [Nat.le_zero] at h
    rw [List.length_eq_zero.mp h]
    cases fuel' <;> rfl
  | succ n ih =>
    intro fuel fuel' pat v t h h' hn
    match fuel, t with
    | 0, t =>
      rw [Nat.le_zero] at h
      rw [List.length_eq_zero.mp h]
      cases fuel' <;> rfl
    | f + 1, [] => cases fuel' <;> rfl
    | f + 1, c :: rest =>
      match fuel', h' with
      | f' + 1, h' =>
        rw [replAux, replAux]
        simp only [List.length_cons] at h h' hn
        by_cases hp : pat ≠ [] ∧ pat.isPrefixOf (c :: rest)
        · simp only [if_pos hp]
          have hplen : 1 ≤ pat.length := by
            rcases pat with _ | ⟨a, pat⟩
            · exact absurd rfl hp.1
            · simp
          have hd := List.length_drop pat.length (c :: rest)
          simp only [List.length_cons] at hd
          rw [ih f f' pat v _ (by omega) (by omega) (by omega)]
        · simp only [if_neg hp]
          rw [ih f f' pat v rest (by omega) (by omega) (by omega)]

theorem replaceAll_eq_fuel (fuel : Nat) (pat v t : Text) (h : t.length ≤ fuel) :
    replAux fuel pat v t = replaceAll pat v t :=
  replAux_fuel fuel fuel t.length pat v t h (Nat.le_refl _) (Nat.le_refl _)

theorem replaceAll_nil (pat v : Text) : replaceAll pat v [] = [] := rfl

theorem replaceAll_cons (pat v : Text) (c : Char) (rest : Text) :
    replaceAll pat v (c :: rest) =
      if pat ≠ [] ∧ pat.isPrefixOf (c :: rest) then
        v ++ replaceAll pat v ((c :: rest).drop pat.length)
      else c :: replaceAll pat v rest := by
  rw [replaceAll, List.length_cons, replAux]
  by_cases hp : pat ≠ [] ∧ pat.isPrefixOf (c :: rest)
  · simp only [if_pos hp]
    have hd := List.length_drop pat.length (c :: rest)
    rw [replaceAll_eq_fuel rest.length pat v _ ?_]
    simp only [List.length_cons] at hd
    have hplen : 1 ≤ pat.length := by
      rcases pat with _ | ⟨a, pat⟩
      · exact absurd rfl hp.1
      · simp
    omega
  · simp only [if_neg hp]
    rw [replaceAll_eq_fuel rest.length pat v rest (Nat.le_refl _)]

/-- The bracketed search string `f"[{name}]"` used by `fill_placeholders`. -/
def mkPat (n : Text) : Text := '[' :: (n ++ [']'])

/-- `replace_in_paragraph` plus its caller's guard (document_handler.py
lines 199-242), at the level of the paragraph's text: each (name, value)
pair whose `[name]` occurs in the paragraph's original text and still
occurs in the current text is replaced everywhere in the current text. -/
def fillPara (para : Text) (values : List (Text × Text)) : Text :=
  values.foldl
    (fun cur nv =>
      if isSubstr (mkPat nv.1) para ∧ isSubstr (mkPat nv.1) cur then
        replaceAll (mkPat nv.1) nv.2 cur
      else cur)
    para

/-- A document, modelled as the list of its paragraph texts (body
paragraphs and table-cell paragraphs, in extraction order). -/
abbrev Doc := List Text

/-- `"\n".join` of `extract_document_text` (document_handler.py lines
72-97). -/
def joinNL : Doc → Text
  | [] => []
  | [u] => u
  | u :: us => u ++ '\n' :: joinNL us

/-- `extract_document_text`: paragraphs whose text is non-blank, joined
with newlines. -/
def extract_document_text (d : Doc) : Text :=
  joinNL (d.filter (fun u => pyStrip u ≠ []))

/-- `fill_placeholders` (document_handler.py lines 171-269), at the level
of the document's paragraph texts. -/
def fill_placeholders (d : Doc) (values : List (Text × Text)) : Doc :=
  d.map (fun para => fillPara para values)

/-! ## Conversation State Machine (backend/main.py `chat`) -/

/-- A `session["filled_values"][k] = v` dict assignment: replace the value
in place when the key exists, else append. -/
def storePut (store : List (Text × Text)) (k v : Text) : List (Text × Text) :=
  if store.any (fun e => e.1 = k) then
    store.map (fun e => if e.1 = k then (e.1, v) else e)
  else store ++ [(k, v)]

/-- The inner placeholder loop of `chat` (main.py lines 158-168): walk the
session's placeholder list; at the first case-insensitive exact name
match, set `filled`/`value` and report the matched exact name; `break`. -/
def applyToFirst (fn v : Text) : List Placeholder → List Placeholder × Option Text
  | [] => ([], none)
  | p :: ps =>
    if pyLower p.name = pyLower fn then
      ({ p with filled := true, value := some v } :: ps, some p.name)
    else
      ((p :: (applyToFirst fn v ps).1), (applyToFirst fn v ps).2)

/-- One `(field_name, value)` iteration of the update loop of `chat`
(main.py lines 156-173): on an exact match, update the placeholder and
store under the exact placeholder name; otherwise store the value under
the extracted name as-is. -/
def applyPair (st : List Placeholder × List (Text × Text)) (nv : Text × Text) :
    List Placeholder × List (Text × Text) :=
  match applyToFirst nv.1 nv.2 st.1 with
  | (ps', some exactName) => (ps', storePut st.2 exactName nv.2)
  | (ps', none) => (ps', storePut st.2 nv.1 nv.2)

/-- The full `filled_values.items()` update loop of `chat`. -/
def chatApply (ps : List Placeholder) (store : List (Text × Text))
    (filled_values : List (Text × Text)) : List Placeholder × List (Text × Text) :=
  filled_values.foldl applyPair (ps, store)

/-- The result dictionary assembled by `chat_for_placeholders`
(llm_handler.py lines 341-410). -/
structure ChatResult where
  assistant_message : Text
  filled_values : List (Text × Text)
  next_placeholder : Option Text
deriving DecidableEq, Repr

/-- Outcome of the external extraction call inside `chat_for_placeholders`:
a parsed JSON object (with possibly missing fields), a response with no
JSON object, a JSON decode error, or any other exception/timeout. -/
inductive LLMOutcome where
  | parsed (msg : Option Text) (vals : Option (List (Text × Text)))
      (next : Option (Option Text))
  | noJson (raw : Text)
  | jsonError
  | exception
deriving DecidableEq, Repr

/-- The post-processing of `chat_for_placeholders` (llm_handler.py lines
348-410): fill in missing fields on success; on every failure path return
an error message with an empty `filled_values` map. -/
def chat_result : LLMOutcome → ChatResult
  | .parsed msg vals next =>
    { assistant_message := msg.getD "Got it".toList,
      filled_values := vals.getD [],
      next_placeholder := next.getD none }
  | .noJson raw =>
    { assistant_message := raw.take 200,
      filled_values := [],
      next_placeholder := none }
  | .jsonError =>
    { assistant_message := "Error processing response".toList,
      filled_values := [],
      next_placeholder := none }
  | .exception =>
    { assistant_message := "Error".toList,
      filled_values := [],
      next_placeholder := none }

/-- The extraction step failed: the response held no parseable JSON
object, raised a JSON decode error, or raised any other exception
(including timeouts). -/
def LLMOutcome.failed : LLMOutcome → Prop
  | .parsed _ _ _ => False
  | _ => True

instance : DecidablePred LLMOutcome.failed := by
  intro o
  cases o <;> simp [LLMOutcome.failed] <;> infer_instance

/-! ## Render Gate (backend/main.py `download_document`) -/

/-- Result of the `/download` endpoint: a 400 error carrying the unfilled
names, or the completed document. -/
inductive DownloadResult where
  | error (unfilledNames : List Text)
  | ok (completed : Doc)
deriving DecidableEq, Repr

/-- `download_document` (main.py lines 192-241): if any placeholder is
unfilled, fail with the list of unfilled names before any substitution;
otherwise produce the document rendered with the session's filled values. -/
def download_document (doc : Doc) (ps : List Placeholder)
    (filled_values : List (Text × Text)) : DownloadResult :=
  if ps.filter (fun p => !p.filled) ≠ [] then
    .error ((ps.filter (fun p => !p.filled)).map Placeholder.name)
  else .ok (fill_placeholders doc filled_values)

/-! ## Theorems: C1 -/

/-- C1: whenever some placeholder is unfilled, `download_document` fails
with the names of all unfilled placeholders and returns no completed
document (the substitution step is never reached); when every placeholder
is filled, the gate passes and substitution proceeds. -/
theorem render_gate (doc : Doc) (ps : List Placeholder)
    (store : List (Text × Text)) :
    ((∃ p ∈ ps, p.filled = false) →
      download_document doc ps store
        = .error ((ps.filter (fun p => !p.filled)).map Placeholder.name)) ∧
    ((∀ p ∈ ps, p.filled = true) →
      download_document doc ps store = .ok (fill_placeholders doc store)) := by
  constructor
  · rintro ⟨p, hp, hf⟩
    have hne : ps.filter (fun p => !p.filled) ≠ [] := by
      intro hnil
      have hm : p ∈ ps.filter (fun p => !p.filled) :=
        List.mem_filter.mpr ⟨hp, by simp [hf]⟩
      rw [hnil] at hm
      cases hm
    rw [download_document, if_pos hne]
  · intro hall
    have hnil : ps.filter (fun p => !p.filled) = [] := by
      rw [List.filter_eq_nil_iff]
      intro p hp
      simp [hall p hp]
    rw [download_document]
    simp [hnil]

/-- Witness for C1 at concrete sessions: one unfilled placeholder makes
the download fail with its name; a fully-filled session renders. -/
theorem render_gate_witness :
    (download_document ["x".toList] [⟨"Date".toList, [], false, none, [], []⟩] []
      = .error ["Date".toList]) ∧
    (download_document ["x".toList]
        [⟨"Date".toList, [], true, some "v".toList, [], []⟩]
        [("Date".toList, "v".toList)]
      = .ok (fill_placeholders ["x".toList] [("Date".toList, "v".toList)])) := by
  constructor
  · exact (render_gate _ _ _).1 ⟨_, List.mem_cons_self _ _, rfl⟩
  · exact (render_gate _ _ _).2 (by decide)

/-! ## Theorems: C4 -/

/-- C4: when the external extraction step errors, times out, returns no
JSON, or returns unparseable JSON, the assembled result carries an empty
`filled_values` map, and applying it mutates neither the placeholder list
(already-filled placeholders keep their values) nor the session's stored
values; the turn completes normally with an error message. -/
theorem chat_failure_no_mutation (ps : List Placeholder)
    (store : List (Text × Text)) (o : LLMOutcome) (h : o.failed) :
    (chat_result o).filled_values = [] ∧
    chatApply ps store (chat_result o).filled_values = (ps, store) := by
  cases o with
  | parsed m v n => exact h.elim
  | noJson raw => exact ⟨rfl, rfl⟩
  | jsonError => exact ⟨rfl, rfl⟩
  | exception => exact ⟨rfl, rfl⟩

/-- Witness for C4: a JSON decode error leaves a session with one filled
placeholder untouched. -/
theorem chat_failure_no_mutation_witness :
    chatApply [⟨"a".toList, [], true, some "v".toList, [], []⟩] []
        (chat_result .jsonError).filled_values
      = ([⟨"a".toList, [], true, some "v".toList, [], []⟩], []) :=
  (chat_failure_no_mutation _ _ .jsonError trivial).2

/-! ## Theorems: C5 -/

/-- The unfilled `Company Name` placeholder of the C5 counterexample. -/
def c5Ph : Placeholder :=
  ⟨"Company Name".toList, [], false, none, "company_name".toList, []⟩

/-- Counterexample for C5: the extracted name `"Company"` is contained in
the placeholder name `"Company Name"` (case-insensitively), yet the chat
update leaves the placeholder unfilled and stores the value as-is under
the extracted name — no substring-containment fallback is attempted. -/
theorem chat_no_substring_fallback_cex :
    isSubstr (pyLower "Company".toList) (pyLower c5Ph.name) = true ∧
    chatApply [c5Ph] [] [("Company".toList, "ABC Corp".toList)]
      = ([c5Ph], [("Company".toList, "ABC Corp".toList)]) := by
  constructor
  · decide
  · decide

theorem applyToFirst_no_match (fn v : Text) :
    ∀ ps : List Placeholder, (∀ p ∈ ps, pyLower p.name ≠ pyLower fn) →
      applyToFirst fn v ps = (ps, none) := by
  intro ps
  induction ps with
  | nil => intro _; rfl
  | cons p ps ih =>
    intro h
    rw [applyToFirst, if_neg (h p (List.mem_cons_self _ _)),
      ih (fun q hq => h q (List.mem_cons_of_mem _ hq))]

theorem applyToFirst_first_match (fn v : Text) :
    ∀ (ps₁ : List Placeholder) (p : Placeholder) (ps₂ : List Placeholder),
      (∀ q ∈ ps₁, pyLower q.name ≠ pyLower fn) →
      pyLower p.name = pyLower fn →
      applyToFirst fn v (ps₁ ++ p :: ps₂)
        = (ps₁ ++ { p with filled := true, value := some v } :: ps₂, some p.name) := by
  intro ps₁
  induction ps₁ with
  | nil =>
    intro p ps₂ _ hp
    rw [List.nil_append, applyToFirst, if_pos hp, List.nil_append]
  | cons q ps₁ ih =>
    intro p ps₂ hq hp
    rw [List.cons_append, applyToFirst,
      if_neg (hq q (List.mem_cons_self _ _)),
      ih p ps₂ (fun r hr => hq r (List.mem_cons_of_mem _ hr)) hp]
    rfl

/-- C5 (amended): extraction results are matched back to placeholders by
case-insensitive exact name match only; a pair with no exact match leaves
every placeholder untouched and stores its value as-is under the
extracted name (logged as a warning), it does not abort the turn, and the
update loop applies every reported pair in sequence, so all remaining
matched pairs are still applied. -/
theorem chat_update_exact_only (ps : List Placeholder)
    (store : List (Text × Text)) :
    (∀ fn v : Text, (∀ p ∈ ps, pyLower p.name ≠ pyLower fn) →
      chatApply ps store [(fn, v)] = (ps, storePut store fn v)) ∧
    (∀ (ps₁ : List Placeholder) (p : Placeholder) (ps₂ : List Placeholder)
        (fn v : Text),
      ps = ps₁ ++ p :: ps₂ →
      (∀ q ∈ ps₁, pyLower q.name ≠ pyLower fn) →
      pyLower p.name = pyLower fn →
      chatApply ps store [(fn, v)]
        = (ps₁ ++ { p with filled := true, value := some v } :: ps₂,
           storePut store p.name v)) ∧
    (∀ pairs₁ pairs₂ : List (Text × Text),
      chatApply ps store (pairs₁ ++ pairs₂)
        = chatApply (chatApply ps store pairs₁).1 (chatApply ps store pairs₁).2
            pairs₂) := by
  refine ⟨?_, ?_, ?_⟩
  · intro fn v h
    show applyPair (ps, store) (fn, v) = _
    rw [applyPair, applyToFirst_no_match fn v ps h]
  · rintro ps₁ p ps₂ fn v rfl hq hp
    show applyPair (ps₁ ++ p :: ps₂, store) (fn, v) = _
    rw [applyPair, applyToFirst_first_match fn v ps₁ p ps₂ hq hp]
  · intro pairs₁ pairs₂
    rw [chatApply, List.foldl_append]
    rfl

/-- Witness for C5's amended theorem: an unmatched write followed by a
matched write — the unmatched one is stored as-is, and the matched pair
is still applied afterwards. -/
theorem chat_update_exact_only_witness :
    chatApply [c5Ph] [] [("Quantity".toList, "7".toList)]
      = ([c5Ph], [("Quantity".toList, "7".toList)]) ∧
    chatApply [c5Ph] [] [("company name".toList, "ABC".toList)]
      = ([{ c5Ph with filled := true, value := some "ABC".toList }],
         [("Company Name".toList, "ABC".toList)]) := by
  constructor
  · exact (chat_update_exact_only [c5Ph] []).1 "Quantity".toList "7".toList
      (by decide)
  · exact (chat_update_exact_only [c5Ph] []).2.1 [] c5Ph []
      "company name".toList "ABC".toList rfl (by intro q hq; cases hq) (by decide)

/-! ## Theorems: C9 -/

theorem findPHAux_fresh (text : Text) :
    ∀ (spans : List (Nat × Text)) (seen : List Text),
      ∀ p ∈ findPHAux text spans seen, p.value = none ∧ p.filled = false := by
  intro spans
  induction spans with
  | nil => intro seen p hp; cases hp
  | cons sp rest ih =>
    intro seen p hp
    obtain ⟨start, content⟩ := sp
    rw [findPHAux] at hp
    by_cases hn : pyStrip content = []
    · rw [if_pos hn] at hp
      exact ih seen p hp
    · rw [if_neg hn] at hp
      by_cases hs : pyLower (pyStrip content) ∈ seen
      · rw [if_pos hs] at hp
        exact ih seen p hp
      · rw [if_neg hs] at hp
        rcases List.mem_cons.mp hp with rfl | hp
        · exact ⟨rfl, rfl⟩
        · exact ih _ p hp

theorem applyToFirst_inv (fn v : Text) :
    ∀ ps : List Placeholder,
      (∀ p ∈ ps, p.value ≠ none ↔ p.filled = true) →
      ∀ p ∈ (applyToFirst fn v ps).1, p.value ≠ none ↔ p.filled = true := by
  intro ps
  induction ps with
  | nil => intro _ p hp; cases hp
  | cons q ps ih =>
    intro h p hp
    rw [applyToFirst] at hp
    by_cases hm : pyLower q.name = pyLower fn
    · rw [if_pos hm] at hp
      rcases List.mem_cons.mp hp with rfl | hp
      · constructor
        · intro _; rfl
        · intro _
          simp
      · exact h p (List.mem_cons_of_mem _ hp)
    · rw [if_neg hm] at hp
      rcases List.mem_cons.mp hp with rfl | hp
      · exact h p (List.mem_cons_self _ _)
      · exact ih (fun r hr => h r (List.mem_cons_of_mem _ hr)) p hp

theorem applyPair_fst (st : List Placeholder × List (Text × Text))
    (nv : Text × Text) :
    (applyPair st nv).1 = (applyToFirst nv.1 nv.2 st.1).1 := by
  rw [applyPair]
  rcases h : applyToFirst nv.1 nv.2 st.1 with ⟨ps', r⟩
  cases r <;> rfl

theorem chatApply_fold_inv :
    ∀ (turns : List (List (Text × Text)))
      (st : List Placeholder × List (Text × Text)),
      (∀ p ∈ st.1, p.value ≠ none ↔ p.filled = true) →
      ∀ p ∈ (turns.foldl (fun st pairs => chatApply st.1 st.2 pairs) st).1,
        p.value ≠ none ↔ p.filled = true := by
  intro turns
  induction turns with
  | nil => intro st h; exact h
  | cons pairs rest ih =>
    intro st h
    rw [List.foldl_cons]
    refine ih _ ?_
    clear ih
    show ∀ p ∈ (chatApply st.1 st.2 pairs).1, _
    rw [chatApply]
    induction pairs generalizing st with
    | nil => exact h
    | cons nv pairs ihp =>
      rw [List.foldl_cons]
      refine ihp (applyPair (st.1, st.2) nv) ?_
      rw [applyPair_fst]
      exact applyToFirst_inv nv.1 nv.2 st.1 h

/-- C9: for every session started from a freshly extracted document and
any sequence of chat-turn updates, each placeholder's `value` is non-null
exactly when its `filled` flag is true. -/
theorem fill_state_invariant (text : Text) (turns : List (List (Text × Text))) :
    ∀ p ∈ (turns.foldl (fun st pairs => chatApply st.1 st.2 pairs)
        (find_placeholders text, ([] : List (Text × Text)))).1,
      p.value ≠ none ↔ p.filled = true := by
  refine chatApply_fold_inv turns _ ?_
  intro p hp
  have hfr := findPHAux_fresh text (scanSpansPos text 0) [] p hp
  rw [hfr.1, hfr.2]
  simp

/-- Witness for C9: one extraction plus one turn filling the single
placeholder, instantiated at that placeholder. -/
theorem fill_state_invariant_witness :
    ((([[("a".toList, "v".toList)]] : List (List (Text × Text))).foldl
        (fun st pairs => chatApply st.1 st.2 pairs)
        (find_placeholders "[a]".toList, ([] : List (Text × Text)))).1.getD 0
          ⟨[], [], false, none, [], []⟩).value ≠ none
      ↔ ((([[("a".toList, "v".toList)]] : List (List (Text × Text))).foldl
        (fun st pairs => chatApply st.1 st.2 pairs)
        (find_placeholders "[a]".toList, ([] : List (Text × Text)))).1.getD 0
          ⟨[], [], false, none, [], []⟩).filled = true := by
  refine fill_state_invariant "[a]".toList [[("a".toList, "v".toList)]] _ ?_
  decide

/-! ## Round-trip machinery: basic facts about the scan and the replace -/

theorem takeWhile_closed_append (m w : Text) (hm : ']' ∉ m) :
    (m ++ ']' :: w).takeWhile (fun ch => ch ≠ ']') = m := by
  induction m with
  | nil => simp [List.takeWhile_cons]
  | cons a m ih =>
    have ha : a ≠ ']' := fun h => hm (h ▸ List.mem_cons_self _ _)
    have hpa : (decide (a ≠ ']')) = true := decide_eq_true ha
    rw [List.cons_append, List.takeWhile_cons, hpa, if_pos rfl,
      ih (fun h => hm (List.mem_cons_of_mem _ h))]

theorem takeWhile_close_split (rest : Text)
    (h : (rest.takeWhile (fun ch => ch ≠ ']')).length < rest.length) :
    rest = rest.takeWhile (fun ch => ch ≠ ']')
      ++ ']' :: rest.drop ((rest.takeWhile (fun ch => ch ≠ ']')).length + 1) := by
  induction rest with
  | nil => cases h
  | cons c rest ih =>
    by_cases hc : c = ']'
    · subst hc
      simp [List.takeWhile_cons]
    · have hpc : (decide (c ≠ ']')) = true := decide_eq_true hc
      rw [List.takeWhile_cons, hpc, if_pos rfl] at h ⊢
      simp only [List.length_cons, Nat.add_lt_add_iff_right] at h
      have hr := ih h
      rw [List.length_cons]
      calc c :: rest
          = c :: (rest.takeWhile (fun ch => ch ≠ ']')
              ++ ']' :: rest.drop
                ((rest.takeWhile (fun ch => ch ≠ ']')).length + 1)) := by
            exact congrArg (c :: ·) hr
        _ = _ := by rw [List.cons_append, List.drop_succ_cons]

theorem takeWhile_lt_of_close_mem (l : Text) (h : ']' ∈ l) :
    (l.takeWhile (fun ch => ch ≠ ']')).length < l.length := by
  induction l with
  | nil => cases h
  | cons c l ih =>
    by_cases hc : c = ']'
    · subst hc
      simp [List.takeWhile_cons]
    · have hpc : (decide (c ≠ ']')) = true := decide_eq_true hc
      rw [List.takeWhile_cons, hpc, if_pos rfl]
      rcases List.mem_cons.mp h with h' | h'
      · exact absurd h'.symm hc
      · simpa using ih h'

theorem takeWhile_eq_self_of_no_close (l : Text) (h : ']' ∉ l) :
    l.takeWhile (fun ch => ch ≠ ']') = l := by
  induction l with
  | nil => rfl
  | cons c l ih =>
    have hc : c ≠ ']' := fun hcc => h (hcc ▸ List.mem_cons_self _ _)
    have hpc : (decide (c ≠ ']')) = true := decide_eq_true hc
    rw [List.takeWhile_cons, hpc, if_pos rfl,
      ih (fun hm => h (List.mem_cons_of_mem _ hm))]

theorem takeWhile_nil_close (l : Text)
    (h : l.takeWhile (fun ch => ch ≠ ']') = []) :
    l = [] ∨ ∃ l₂, l = ']' :: l₂ := by
  match l with
  | [] => exact Or.inl rfl
  | c :: l₂ =>
    right
    refine ⟨l₂, ?_⟩
    rw [List.takeWhile_cons] at h
    by_cases hc : c = ']'
    · rw [hc]
    · have hpc : (decide (c ≠ ']')) = true := decide_eq_true hc
      rw [hpc, if_pos rfl] at h
      cases h

theorem drop_one_past (m w : Text) :
    ((m ++ ']' :: w).drop (m.length + 1)) = w := by
  have h1 : m ++ ']' :: w = (m ++ [']']) ++ w := by simp
  have hl : (m ++ [']']).length = m.length + 1 := by simp
  rw [h1, ← hl, List.drop_left]

/-- Every span content is non-empty, free of `]`, and sits in the text as
a literal `[content]` segment. -/
theorem scanSpans_mem_spec : ∀ (N : Nat) (t : Text), t.length ≤ N →
    ∀ c ∈ scanSpans t,
      c ≠ [] ∧ ']' ∉ c ∧ ∃ x z, t = x ++ '[' :: (c ++ ']' :: z) := by
  intro N
  induction N with
  | zero =>
    intro t ht c hc
    rw [List.length_eq_zero.mp (Nat.le_zero.mp ht)] at hc
    cases hc
  | succ N ih =>
    intro t ht c hc
    match t with
    | [] => cases hc
    | b :: rest =>
      rw [scanSpans_cons] at hc
      simp only [List.length_cons] at ht
      by_cases hb : b = '['
      · rw [if_pos hb] at hc
        by_cases hs : (rest.takeWhile (fun ch => ch ≠ ']')) ≠ [] ∧
            (rest.takeWhile (fun ch => ch ≠ ']')).length < rest.length
        · rw [if_pos hs] at hc
          have hsplit := takeWhile_close_split rest hs.2
          rcases List.mem_cons.mp hc with rfl | hc
          · refine ⟨hs.1, ?_, [],
              rest.drop ((rest.takeWhile (fun ch => ch ≠ ']')).length + 1), ?_⟩
            · intro hmem
              have := List.mem_takeWhile_imp hmem
              simp at this
            · rw [hb, List.nil_append]
              exact congrArg ('[' :: ·) hsplit
          · have hd := List.length_drop
              ((rest.takeWhile (fun ch => ch ≠ ']')).length + 1) rest
            obtain ⟨hne, hcl, x, z, hxz⟩ := ih _ (by omega) c hc
            refine ⟨hne, hcl,
              '[' :: (rest.takeWhile (fun ch => ch ≠ ']') ++ ']' :: x), z, ?_⟩
            rw [hb]
            calc '[' :: rest
                = '[' :: (rest.takeWhile (fun ch => ch ≠ ']')
                    ++ ']' :: rest.drop
                      ((rest.takeWhile (fun ch => ch ≠ ']')).length + 1)) :=
                  congrArg ('[' :: ·) hsplit
              _ = _ := by rw [hxz]; simp
        · rw [if_neg hs] at hc
          obtain ⟨hne, hcl, x, z, hxz⟩ := ih rest (by omega) c hc
          exact ⟨hne, hcl, b :: x, z, by rw [hxz]; rfl⟩
      · rw [if_neg hb] at hc
        obtain ⟨hne, hcl, x, z, hxz⟩ := ih rest (by omega) c hc
        exact ⟨hne, hcl, b :: x, z, by rw [hxz]; rfl⟩

theorem scanSpans_nil_of_no_open : ∀ (t : Text), '[' ∉ t → scanSpans t = [] := by
  intro t
  induction t with
  | nil => intro _; rfl
  | cons c rest ih =>
    intro h
    rw [scanSpans_cons,
      if_neg (fun hc : c = '[' => h (hc ▸ List.mem_cons_self _ _))]
    exact ih (fun hm => h (List.mem_cons_of_mem _ hm))

theorem scanSpans_append_no_open : ∀ (u w : Text), (∀ ch ∈ u, ch ≠ '[') →
    scanSpans (u ++ w) = scanSpans w := by
  intro u
  induction u with
  | nil => intro w _; rfl
  | cons c u ih =>
    intro w h
    rw [List.cons_append, scanSpans_cons,
      if_neg (h c (List.mem_cons_self _ _))]
    exact ih w (fun a ha => h a (List.mem_cons_of_mem _ ha))

theorem mkPat_ne_nil (n : Text) : mkPat n ≠ [] := by
  simp [mkPat]

theorem close_mem_mkPat (n : Text) : ']' ∈ mkPat n := by
  simp [mkPat]

theorem replaceAll_append_no_open :
    ∀ (u w q v : Text), (∀ ch ∈ u, ch ≠ '[') →
      replaceAll ('[' :: q) v (u ++ w) = u ++ replaceAll ('[' :: q) v w := by
  intro u
  induction u with
  | nil => intro w q v _; rfl
  | cons c u ih =>
    intro w q v h
    rw [List.cons_append, replaceAll_cons, if_neg, List.cons_append,
      ih w q v (fun a ha => h a (List.mem_cons_of_mem _ ha))]
    rintro ⟨-, hpre⟩
    rcases List.isPrefixOf_iff_prefix.mp hpre with ⟨r, hr⟩
    rw [List.cons_append] at hr
    exact h c (List.mem_cons_self _ _) ((List.cons.injEq _ _ _ _).mp hr).1.symm

theorem replaceAll_no_occurrence :
    ∀ (t pat v : Text), ']' ∈ pat → ']' ∉ t → replaceAll pat v t = t := by
  intro t
  induction t with
  | nil => intro pat v _ _; rfl
  | cons c rest ih =>
    intro pat v hpat ht
    rw [replaceAll_cons, if_neg, ih pat v hpat
      (fun hm => ht (List.mem_cons_of_mem _ hm))]
    rintro ⟨-, hpre⟩
    exact ht (List.IsPrefix.mem hpat (List.isPrefixOf_iff_prefix.mp hpre))

theorem mem_replaceAll : ∀ (N : Nat) (t pat v : Text), t.length ≤ N →
    ∀ a ∈ replaceAll pat v t, a ∈ t ∨ a ∈ v := by
  intro N
  induction N with
  | zero =>
    intro t pat v ht a ha
    rw [List.length_eq_zero.mp (Nat.le_zero.mp ht)] at ha
    cases ha
  | succ N ih =>
    intro t pat v ht a ha
    match t with
    | [] => cases ha
    | c :: rest =>
      rw [replaceAll_cons] at ha
      simp only [List.length_cons] at ht
      by_cases hp : pat ≠ [] ∧ pat.isPrefixOf (c :: rest)
      · rw [if_pos hp] at ha
        rcases List.mem_append.mp ha with hv | hr
        · exact Or.inr hv
        · have hplen : 1 ≤ pat.length := by
            rcases pat with _ | ⟨b, pat⟩
            · exact absurd rfl hp.1
            · simp
          have hd := List.length_drop pat.length (c :: rest)
          simp only [List.length_cons] at hd
          rcases ih _ pat v (by omega) a hr with hm | hm
          · exact Or.inl (List.drop_subset _ _ hm)
          · exact Or.inr hm
      · rw [if_neg hp] at ha
        rcases List.mem_cons.mp ha with rfl | hm
        · exact Or.inl (List.mem_cons_self _ _)
        · rcases ih rest pat v (by omega) a hm with h | h
          · exact Or.inl (List.mem_cons_of_mem _ h)
          · exact Or.inr h

theorem mem_of_isSubstr (pat t : Text) (h : isSubstr pat t = true) :
    ∀ a ∈ pat, a ∈ t := by
  rw [isSubstr, List.any_eq_true] at h
  rcases h with ⟨s, hs, hpre⟩
  have hsfx : s <:+ t := (List.mem_tails s t).mp hs
  have hpfx : pat <+: s := List.isPrefixOf_iff_prefix.mp hpre
  intro a ha
  exact hsfx.subset (hpfx.subset ha)

theorem isSubstr_of_parts (x p z : Text) : isSubstr p (x ++ (p ++ z)) = true := by
  rw [isSubstr, List.any_eq_true]
  refine ⟨p ++ z, ?_, ?_⟩
  · rw [List.mem_tails]
    exact ⟨x, rfl⟩
  · exact List.isPrefixOf_iff_prefix.mpr ⟨z, rfl⟩

theorem isSubstr_of_span (c t : Text) (h : ∃ x z, t = x ++ '[' :: (c ++ ']' :: z)) :
    isSubstr (mkPat c) t = true := by
  rcases h with ⟨x, z, rfl⟩
  have : x ++ '[' :: (c ++ ']' :: z) = x ++ (mkPat c ++ z) := by
    simp [mkPat]
  rw [this]
  exact isSubstr_of_parts x (mkPat c) z

theorem close_not_mem_takeWhile (l : Text) :
    ']' ∉ l.takeWhile (fun ch => ch ≠ ']') := by
  intro hmem
  have := List.mem_takeWhile_imp hmem
  simp at this

/-- Replacing `[n]` by a bracket-free value removes exactly the spans whose
content is `n`, provided no span content contains a nested `[`. -/
theorem scanSpans_replaceAll (n₀ v : Text) (hn : n₀ ≠ []) (hnr : ']' ∉ n₀)
    (hvl : '[' ∉ v) :
    ∀ (N : Nat) (t : Text), t.length ≤ N →
      (∀ c ∈ scanSpans t, '[' ∉ c) →
      scanSpans (replaceAll (mkPat n₀) v t)
        = (scanSpans t).filter (fun c => c ≠ n₀) := by
  intro N
  induction N with
  | zero =>
    intro t ht H
    rw [List.length_eq_zero.mp (Nat.le_zero.mp ht)]
    rfl
  | succ N ih =>
    intro t ht H
    match t with
    | [] => rfl
    | c :: rest =>
      simp only [List.length_cons] at ht
      by_cases hpre : (mkPat n₀).isPrefixOf (c :: rest)
      · obtain ⟨rest₁, hr⟩ := List.isPrefixOf_iff_prefix.mp hpre
        have hc : c = '[' := by
          rw [mkPat, List.cons_append] at hr
          exact ((List.cons.injEq _ _ _ _).mp hr).1.symm
        have hrest : rest = n₀ ++ ']' :: rest₁ := by
          rw [mkPat, List.cons_append] at hr
          have h2 := ((List.cons.injEq _ _ _ _).mp hr).2
          rw [← h2]
          simp
        have hlen1 : rest₁.length ≤ N := by
          rw [hrest] at ht
          simp only [List.length_append, List.length_cons] at ht
          omega
        have hdrop : (c :: rest).drop (mkPat n₀).length = rest₁ := by
          rw [← hr, List.drop_left]
        have hspanst : scanSpans (c :: rest) = n₀ :: scanSpans rest₁ := by
          rw [scanSpans_cons, if_pos hc, hrest,
            takeWhile_closed_append n₀ rest₁ hnr,
            if_pos ⟨hn, by simp⟩, drop_one_past]
        have hH1 : ∀ c' ∈ scanSpans rest₁, '[' ∉ c' := by
          intro c' hc'
          exact H c' (by rw [hspanst]; exact List.mem_cons_of_mem _ hc')
        calc scanSpans (replaceAll (mkPat n₀) v (c :: rest))
            = scanSpans (v ++ replaceAll (mkPat n₀) v rest₁) := by
              rw [replaceAll_cons, if_pos ⟨mkPat_ne_nil n₀, hpre⟩, hdrop]
          _ = scanSpans (replaceAll (mkPat n₀) v rest₁) :=
              scanSpans_append_no_open v _ (fun ch hch he => hvl (he ▸ hch))
          _ = (scanSpans rest₁).filter (fun x => x ≠ n₀) := ih rest₁ hlen1 hH1
          _ = (scanSpans (c :: rest)).filter (fun x => x ≠ n₀) := by
              rw [hspanst, List.filter_cons]
              simp
      · by_cases hop : c = '['
        · by_cases hs : (rest.takeWhile (fun ch => ch ≠ ']')) ≠ [] ∧
              (rest.takeWhile (fun ch => ch ≠ ']')).length < rest.length
          · have hsplit := takeWhile_close_split rest hs.2
            have hspanst : scanSpans (c :: rest)
                = rest.takeWhile (fun ch => ch ≠ ']')
                  :: scanSpans (rest.drop
                    ((rest.takeWhile (fun ch => ch ≠ ']')).length + 1)) := by
              rw [scanSpans_cons, if_pos hop, if_pos hs]
            have hctl : '[' ∉ rest.takeWhile (fun ch => ch ≠ ']') :=
              H _ (by rw [hspanst]; exact List.mem_cons_self _ _)
            have hcne : rest.takeWhile (fun ch => ch ≠ ']') ≠ n₀ := by
              intro he
              apply hpre
              apply List.isPrefixOf_iff_prefix.mpr
              refine ⟨rest.drop ((rest.takeWhile (fun ch => ch ≠ ']')).length + 1),
                ?_⟩
              rw [mkPat, List.cons_append, hop]
              refine congrArg ('[' :: ·) ?_
              calc (n₀ ++ [']']) ++ rest.drop
                    ((rest.takeWhile (fun ch => ch ≠ ']')).length + 1)
                  = n₀ ++ ']' :: rest.drop
                    ((rest.takeWhile (fun ch => ch ≠ ']')).length + 1) := by simp
                _ = rest := by rw [← he, ← hsplit]
            have hlen2 : (rest.drop
                ((rest.takeWhile (fun ch => ch ≠ ']')).length + 1)).length ≤ N := by
              have := List.length_drop
                ((rest.takeWhile (fun ch => ch ≠ ']')).length + 1) rest
              omega
            have hH2 : ∀ c' ∈ scanSpans (rest.drop
                ((rest.takeWhile (fun ch => ch ≠ ']')).length + 1)), '[' ∉ c' := by
              intro c' hc'
              exact H c' (by rw [hspanst]; exact List.mem_cons_of_mem _ hc')
            have hrepl : replaceAll (mkPat n₀) v (c :: rest)
                = '[' :: ((rest.takeWhile (fun ch => ch ≠ ']') ++ [']'])
                    ++ replaceAll (mkPat n₀) v (rest.drop
                      ((rest.takeWhile (fun ch => ch ≠ ']')).length + 1))) := by
              rw [replaceAll_cons, if_neg (fun h => hpre h.2), hop]
              refine congrArg ('[' :: ·) ?_
              conv_lhs => rw [hsplit]
              have hassoc : rest.takeWhile (fun ch => ch ≠ ']')
                    ++ ']' :: rest.drop
                      ((rest.takeWhile (fun ch => ch ≠ ']')).length + 1)
                  = (rest.takeWhile (fun ch => ch ≠ ']') ++ [']'])
                    ++ rest.drop
                      ((rest.takeWhile (fun ch => ch ≠ ']')).length + 1) := by simp
              rw [hassoc, mkPat]
              refine replaceAll_append_no_open _ _ _ v ?_
              intro ch hch
              rcases List.mem_append.mp hch with hm | hm
              · exact fun he => hctl (he ▸ hm)
              · rcases List.mem_singleton.mp hm with rfl
                decide
            calc scanSpans (replaceAll (mkPat n₀) v (c :: rest))
                = scanSpans ('[' :: ((rest.takeWhile (fun ch => ch ≠ ']') ++ [']'])
                    ++ replaceAll (mkPat n₀) v (rest.drop
                      ((rest.takeWhile (fun ch => ch ≠ ']')).length + 1)))) := by
                  rw [hrepl]
              _ = rest.takeWhile (fun ch => ch ≠ ']')
                    :: scanSpans (replaceAll (mkPat n₀) v (rest.drop
                      ((rest.takeWhile (fun ch => ch ≠ ']')).length + 1))) := by
                  rw [scanSpans_cons, if_pos rfl]
                  have hassoc : (rest.takeWhile (fun ch => ch ≠ ']') ++ [']'])
                        ++ replaceAll (mkPat n₀) v (rest.drop
                          ((rest.takeWhile (fun ch => ch ≠ ']')).length + 1))
                      = rest.takeWhile (fun ch => ch ≠ ']')
                        ++ ']' :: replaceAll (mkPat n₀) v (rest.drop
                          ((rest.takeWhile (fun ch => ch ≠ ']')).length + 1)) := by
                    simp
                  rw [hassoc,
                    takeWhile_closed_append _ _ (close_not_mem_takeWhile rest),
                    if_pos ⟨hs.1, by simp⟩, drop_one_past]
              _ = rest.takeWhile (fun ch => ch ≠ ']')
                    :: (scanSpans (rest.drop
                      ((rest.takeWhile (fun ch => ch ≠ ']')).length + 1))).filter
                        (fun x => x ≠ n₀) := by
                  rw [ih _ hlen2 hH2]
              _ = (scanSpans (c :: rest)).filter (fun x => x ≠ n₀) := by
                  rw [hspanst, List.filter_cons, decide_eq_true hcne, if_pos rfl]
          · have hspanst : scanSpans (c :: rest) = scanSpans rest := by
              rw [scanSpans_cons, if_pos hop, if_neg hs]
            by_cases hclose : ']' ∈ rest
            · have hlt := takeWhile_lt_of_close_mem rest hclose
              have hcnil : rest.takeWhile (fun ch => ch ≠ ']') = [] := by
                by_contra hne
                exact hs ⟨hne, hlt⟩
              rcases takeWhile_nil_close rest hcnil with rfl | ⟨rest₂, rfl⟩
              · cases hclose
              · have hlen3 : rest₂.length ≤ N := by
                  simp only [List.length_cons] at ht
                  omega
                have hsp2 : scanSpans (']' :: rest₂) = scanSpans rest₂ := by
                  rw [scanSpans_cons, if_neg (by decide)]
                have hH3 : ∀ c' ∈ scanSpans rest₂, '[' ∉ c' := by
                  intro c' hc'
                  exact H c' (by rw [hspanst, hsp2]; exact hc')
                have hr2 : replaceAll (mkPat n₀) v (']' :: rest₂)
                    = ']' :: replaceAll (mkPat n₀) v rest₂ := by
                  rw [replaceAll_cons, if_neg]
                  rintro ⟨-, hp⟩
                  rcases List.isPrefixOf_iff_prefix.mp hp with ⟨r, hrr⟩
                  rw [mkPat, List.cons_append] at hrr
                  exact absurd ((List.cons.injEq _ _ _ _).mp hrr).1 (by decide)
                have htw0 : (']' :: replaceAll (mkPat n₀) v rest₂).takeWhile
                    (fun ch => ch ≠ ']') = [] := by
                  rw [List.takeWhile_cons]
                  simp
                calc scanSpans (replaceAll (mkPat n₀) v (c :: ']' :: rest₂))
                    = scanSpans ('[' :: ']' :: replaceAll (mkPat n₀) v rest₂) := by
                      rw [replaceAll_cons, if_neg (fun h => hpre h.2), hr2, hop]
                  _ = scanSpans (replaceAll (mkPat n₀) v rest₂) := by
                      rw [scanSpans_cons, if_pos rfl, htw0, if_neg (by simp),
                        scanSpans_cons, if_neg (by decide)]
                  _ = (scanSpans rest₂).filter (fun x => x ≠ n₀) :=
                      ih rest₂ hlen3 hH3
                  _ = (scanSpans (c :: ']' :: rest₂)).filter (fun x => x ≠ n₀) := by
                      rw [hspanst, hsp2]
            · have hnr2 : replaceAll (mkPat n₀) v rest = rest :=
                replaceAll_no_occurrence rest _ v (close_mem_mkPat n₀) hclose
              have hH4 : ∀ c' ∈ scanSpans rest, '[' ∉ c' := by
                intro c' hc'
                exact H c' (by rw [hspanst]; exact hc')
              have hfix : scanSpans rest
                  = (scanSpans rest).filter (fun x => x ≠ n₀) := by
                have hthis := ih rest (by omega) hH4
                rw [hnr2] at hthis
                exact hthis
              calc scanSpans (replaceAll (mkPat n₀) v (c :: rest))
                  = scanSpans (c :: rest) := by
                    rw [replaceAll_cons, if_neg (fun h => hpre h.2), hnr2]
                _ = scanSpans rest := hspanst
                _ = (scanSpans rest).filter (fun x => x ≠ n₀) := hfix
                _ = (scanSpans (c :: rest)).filter (fun x => x ≠ n₀) := by
                    rw [hspanst]
        · have hspanst : scanSpans (c :: rest) = scanSpans rest := by
            rw [scanSpans_cons, if_neg hop]
          have hH5 : ∀ c' ∈ scanSpans rest, '[' ∉ c' := by
            intro c' hc'
            exact H c' (by rw [hspanst]; exact hc')
          calc scanSpans (replaceAll (mkPat n₀) v (c :: rest))
              = scanSpans (c :: replaceAll (mkPat n₀) v rest) := by
                rw [replaceAll_cons, if_neg (fun h => hpre h.2)]
            _ = scanSpans (replaceAll (mkPat n₀) v rest) := by
                rw [scanSpans_cons, if_neg hop]
            _ = (scanSpans rest).filter (fun x => x ≠ n₀) :=
                ih rest (by omega) hH5
            _ = (scanSpans (c :: rest)).filter (fun x => x ≠ n₀) := by
                rw [hspanst]

/-- A `[` with no later `]` in the same text: the only way a rendered
paragraph can contribute the opening half of a cross-paragraph span. -/
def danglingOpen (t : Text) : Prop := ∃ x y, t = x ++ '[' :: y ∧ ']' ∉ y

theorem danglingOpen_cons (c : Char) (w : Text) (h : danglingOpen (c :: w)) :
    (c = '[' ∧ ']' ∉ w) ∨ danglingOpen w := by
  rcases h with ⟨x, y, heq, hy⟩
  match x, heq with
  | [], heq =>
    rw [List.nil_append] at heq
    rcases (List.cons.injEq _ _ _ _).mp heq with ⟨rfl, rfl⟩
    exact Or.inl ⟨rfl, hy⟩
  | a :: x', heq =>
    rw [List.cons_append] at heq
    rcases (List.cons.injEq _ _ _ _).mp heq with ⟨rfl, rfl⟩
    exact Or.inr ⟨x', y, rfl, hy⟩

theorem danglingOpen_append_right (x : Text) {w : Text} (h : danglingOpen w) :
    danglingOpen (x ++ w) := by
  rcases h with ⟨a, y, rfl, hy⟩
  exact ⟨x ++ a, y, by simp, hy⟩

theorem danglingOpen_append_no_open (u w : Text) (hu : '[' ∉ u)
    (h : danglingOpen (u ++ w)) : danglingOpen w := by
  rcases h with ⟨x, y, heq, hy⟩
  rcases List.append_eq_append_iff.mp heq with ⟨a', ha1, ha2⟩ | ⟨c', hc1, hc2⟩
  · exact ⟨a', y, ha2, hy⟩
  · match c', hc2 with
    | [], hc2 =>
      rw [List.nil_append] at hc2
      exact ⟨[], y, hc2.symm, hy⟩
    | b :: c'', hc2 =>
      rcases (List.cons.injEq _ _ _ _).mp hc2 with ⟨rfl, _⟩
      exact absurd (hc1 ▸ List.mem_append_right x (List.mem_cons_self _ _)) hu

/-- A dangling `[` in the rendered text comes from a dangling `[` in the
source text, provided values are bracket-free and span contents have no
nested `[`. -/
theorem dangling_replaceAll (n₀ v : Text) (hn : n₀ ≠ []) (hnr : ']' ∉ n₀)
    (hvl : '[' ∉ v) :
    ∀ (N : Nat) (t : Text), t.length ≤ N →
      (∀ c ∈ scanSpans t, '[' ∉ c) →
      danglingOpen (replaceAll (mkPat n₀) v t) → danglingOpen t := by
  intro N
  induction N with
  | zero =>
    intro t ht H hd
    rw [List.length_eq_zero.mp (Nat.le_zero.mp ht)] at hd ⊢
    exact hd
  | succ N ih =>
    intro t ht H hd
    match t with
    | [] => exact hd
    | c :: rest =>
      simp only [List.length_cons] at ht
      by_cases hpre : (mkPat n₀).isPrefixOf (c :: rest)
      · obtain ⟨rest₁, hr⟩ := List.isPrefixOf_iff_prefix.mp hpre
        have hc : c = '[' := by
          rw [mkPat, List.cons_append] at hr
          exact ((List.cons.injEq _ _ _ _).mp hr).1.symm
        have hrest : rest = n₀ ++ ']' :: rest₁ := by
          rw [mkPat, List.cons_append] at hr
          have h2 := ((List.cons.injEq _ _ _ _).mp hr).2
          rw [← h2]
          simp
        have hlen1 : rest₁.length ≤ N := by
          rw [hrest] at ht
          simp only [List.length_append, List.length_cons] at ht
          omega
        have hdrop : (c :: rest).drop (mkPat n₀).length = rest₁ := by
          rw [← hr, List.drop_left]
        have hspanst : scanSpans (c :: rest) = n₀ :: scanSpans rest₁ := by
          rw [scanSpans_cons, if_pos hc, hrest,
            takeWhile_closed_append n₀ rest₁ hnr,
            if_pos ⟨hn, by simp⟩, drop_one_past]
        have hH1 : ∀ c' ∈ scanSpans rest₁, '[' ∉ c' := by
          intro c' hc'
          exact H c' (by rw [hspanst]; exact List.mem_cons_of_mem _ hc')
        rw [replaceAll_cons, if_pos ⟨mkPat_ne_nil n₀, hpre⟩, hdrop] at hd
        have hd1 := danglingOpen_append_no_open v _ hvl hd
        rcases ih rest₁ hlen1 hH1 hd1 with ⟨x, y, hxy, hy⟩
        refine ⟨mkPat n₀ ++ x, y, ?_, hy⟩
        rw [← hr, hxy]
        simp
      · by_cases hop : c = '['
        · by_cases hs : (rest.takeWhile (fun ch => ch ≠ ']')) ≠ [] ∧
              (rest.takeWhile (fun ch => ch ≠ ']')).length < rest.length
          · have hsplit := takeWhile_close_split rest hs.2
            have hspanst : scanSpans (c :: rest)
                = rest.takeWhile (fun ch => ch ≠ ']')
                  :: scanSpans (rest.drop
                    ((rest.takeWhile (fun ch => ch ≠ ']')).length + 1)) := by
              rw [scanSpans_cons, if_pos hop, if_pos hs]
            have hctl : '[' ∉ rest.takeWhile (fun ch => ch ≠ ']') :=
              H _ (by rw [hspanst]; exact List.mem_cons_self _ _)
            have hlen2 : (rest.drop
                ((rest.takeWhile (fun ch => ch ≠ ']')).length + 1)).length ≤ N := by
              have := List.length_drop
                ((rest.takeWhile (fun ch => ch ≠ ']')).length + 1) rest
              omega
            have hH2 : ∀ c' ∈ scanSpans (rest.drop
                ((rest.takeWhile (fun ch => ch ≠ ']')).length + 1)), '[' ∉ c' := by
              intro c' hc'
              exact H c' (by rw [hspanst]; exact List.mem_cons_of_mem _ hc')
            have hrepl : replaceAll (mkPat n₀) v (c :: rest)
                = '[' :: ((rest.takeWhile (fun ch => ch ≠ ']') ++ [']'])
                    ++ replaceAll (mkPat n₀) v (rest.drop
                      ((rest.takeWhile (fun ch => ch ≠ ']')).length + 1))) := by
              rw [replaceAll_cons, if_neg (fun h => hpre h.2), hop]
              refine congrArg ('[' :: ·) ?_
              conv_lhs => rw [hsplit]
              have hassoc : rest.takeWhile (fun ch => ch ≠ ']')
                    ++ ']' :: rest.drop
                      ((rest.takeWhile (fun ch => ch ≠ ']')).length + 1)
                  = (rest.takeWhile (fun ch => ch ≠ ']') ++ [']'])
                    ++ rest.drop
                      ((rest.takeWhile (fun ch => ch ≠ ']')).length + 1) := by
                simp
              rw [hassoc, mkPat]
              refine replaceAll_append_no_open _ _ _ v ?_
              intro ch hch
              rcases List.mem_append.mp hch with hm | hm
              · exact fun he => hctl (he ▸ hm)
              · rcases List.mem_singleton.mp hm with rfl
                decide
            rw [hrepl] at hd
            rcases danglingOpen_cons _ _ hd with ⟨-, hy⟩ | hd2
            · exact absurd
                (List.mem_append_left _ (List.mem_append_right _
                  (List.mem_singleton.mpr rfl))) hy
            · have hd3 := danglingOpen_append_no_open
                (rest.takeWhile (fun ch => ch ≠ ']') ++ [']']) _
                (by
                  intro hmem
                  rcases List.mem_append.mp hmem with hm | hm
                  · exact hctl hm
                  · rcases List.mem_singleton.mp hm with hne
                    cases hne) hd2
              rcases ih _ hlen2 hH2 hd3 with ⟨x, y, hxy, hy⟩
              refine ⟨'[' :: (rest.takeWhile (fun ch => ch ≠ ']') ++ ']' :: x),
                y, ?_, hy⟩
              rw [hop]
              refine congrArg ('[' :: ·) ?_
              conv_lhs => rw [hsplit]
              rw [hxy]
              simp
          · have hspanst : scanSpans (c :: rest) = scanSpans rest := by
              rw [scanSpans_cons, if_pos hop, if_neg hs]
            by_cases hclose : ']' ∈ rest
            · have hlt := takeWhile_lt_of_close_mem rest hclose
              have hcnil : rest.takeWhile (fun ch => ch ≠ ']') = [] := by
                by_contra hne
                exact hs ⟨hne, hlt⟩
              rcases takeWhile_nil_close rest hcnil with rfl | ⟨rest₂, rfl⟩
              · cases hclose
              · have hlen3 : rest₂.length ≤ N := by
                  simp only [List.length_cons] at ht
                  omega
                have hsp2 : scanSpans (']' :: rest₂) = scanSpans rest₂ := by
                  rw [scanSpans_cons, if_neg (by decide)]
                have hH3 : ∀ c' ∈ scanSpans rest₂, '[' ∉ c' := by
                  intro c' hc'
                  exact H c' (by rw [hspanst, hsp2]; exact hc')
                have hr2 : replaceAll (mkPat n₀) v (']' :: rest₂)
                    = ']' :: replaceAll (mkPat n₀) v rest₂ := by
                  rw [replaceAll_cons, if_neg]
                  rintro ⟨-, hp⟩
                  rcases List.isPrefixOf_iff_prefix.mp hp with ⟨r, hrr⟩
                  rw [mkPat, List.cons_append] at hrr
                  exact absurd ((List.cons.injEq _ _ _ _).mp hrr).1 (by decide)
                rw [replaceAll_cons, if_neg (fun h => hpre h.2), hr2] at hd
                rcases danglingOpen_cons _ _ hd with ⟨-, hy⟩ | hd2
                · exact absurd (List.mem_cons_self _ _) hy
                · rcases danglingOpen_cons _ _ hd2 with ⟨hne, -⟩ | hd3
                  · cases hne
                  · rcases ih rest₂ hlen3 hH3 hd3 with ⟨x, y, hxy, hy⟩
                    exact ⟨c :: ']' :: x, y, by rw [hxy]; rfl, hy⟩
            · have hnr2 : replaceAll (mkPat n₀) v rest = rest :=
                replaceAll_no_occurrence rest _ v (close_mem_mkPat n₀) hclose
              rw [replaceAll_cons, if_neg (fun h => hpre h.2), hnr2] at hd
              exact hd
        · rw [replaceAll_cons, if_neg (fun h => hpre h.2)] at hd
          have hspanst : scanSpans (c :: rest) = scanSpans rest := by
            rw [scanSpans_cons, if_neg hop]
          have hH5 : ∀ c' ∈ scanSpans rest, '[' ∉ c' := by
            intro c' hc'
            exact H c' (by rw [hspanst]; exact hc')
          rcases danglingOpen_cons _ _ hd with ⟨hne, -⟩ | hd2
          · exact absurd hne hop
          · rcases ih rest (by omega) hH5 hd2 with ⟨x, y, hxy, hy⟩
            exact ⟨c :: x, y, by rw [hxy]; rfl, hy⟩

theorem fillPara_fold_main :
    ∀ (values : List (Text × Text)) (para cur : Text),
      (∀ nv ∈ values, nv.1 ≠ [] ∧ ']' ∉ nv.1 ∧ '[' ∉ nv.2) →
      (∀ c ∈ scanSpans cur, '[' ∉ c) →
      (∀ c ∈ scanSpans cur, c ∈ scanSpans para) →
      scanSpans (values.foldl (fun cur nv =>
          if isSubstr (mkPat nv.1) para ∧ isSubstr (mkPat nv.1) cur then
            replaceAll (mkPat nv.1) nv.2 cur
          else cur) cur)
        = (scanSpans cur).filter (fun c => c ∉ values.map Prod.fst) ∧
      (danglingOpen (values.foldl (fun cur nv =>
          if isSubstr (mkPat nv.1) para ∧ isSubstr (mkPat nv.1) cur then
            replaceAll (mkPat nv.1) nv.2 cur
          else cur) cur) → danglingOpen cur) := by
  intro values
  induction values with
  | nil =>
    intro para cur _ _ _
    constructor
    · rw [List.foldl_nil]
      symm
      simp
    · intro h
      exact h
  | cons nv values ih =>
    intro para cur hv H hsub
    rw [List.foldl_cons]
    by_cases hcond : isSubstr (mkPat nv.1) para ∧ isSubstr (mkPat nv.1) cur
    · obtain ⟨hne, hcl, hvl⟩ := hv nv (List.mem_cons_self _ _)
      have hmain := scanSpans_replaceAll nv.1 nv.2 hne hcl hvl
        cur.length cur (Nat.le_refl _) H
      have H2 : ∀ c ∈ scanSpans (replaceAll (mkPat nv.1) nv.2 cur), '[' ∉ c := by
        intro c hc
        rw [hmain] at hc
        exact H c (List.mem_filter.mp hc).1
      have hsub2 : ∀ c ∈ scanSpans (replaceAll (mkPat nv.1) nv.2 cur),
          c ∈ scanSpans para := by
        intro c hc
        rw [hmain] at hc
        exact hsub c (List.mem_filter.mp hc).1
      have hrec := ih para (replaceAll (mkPat nv.1) nv.2 cur)
        (fun q hq => hv q (List.mem_cons_of_mem _ hq)) H2 hsub2
      rw [if_pos hcond]
      constructor
      · rw [hrec.1, hmain, List.filter_filter]
        refine List.filter_congr ?_
        intro x hx
        by_cases h1 : x = nv.1 <;> by_cases h2 : x ∈ values.map Prod.fst <;>
          simp [h1, h2]
      · intro hdang
        exact dangling_replaceAll nv.1 nv.2 hne hcl hvl
          cur.length cur (Nat.le_refl _) H (hrec.2 hdang)
    · rw [if_neg hcond]
      have hnotin : nv.1 ∉ scanSpans cur := by
        intro hmem
        obtain ⟨-, -, hdec⟩ :=
          scanSpans_mem_spec cur.length cur (Nat.le_refl _) nv.1 hmem
        have hc1 : isSubstr (mkPat nv.1) cur = true := isSubstr_of_span _ _ hdec
        have hmempara := hsub nv.1 hmem
        obtain ⟨-, -, hdecp⟩ :=
          scanSpans_mem_spec para.length para (Nat.le_refl _) nv.1 hmempara
        have hc2 : isSubstr (mkPat nv.1) para = true := isSubstr_of_span _ _ hdecp
        exact hcond ⟨hc2, hc1⟩
      have hrec := ih para cur
        (fun q hq => hv q (List.mem_cons_of_mem _ hq)) H hsub
      constructor
      · rw [hrec.1]
        refine List.filter_congr ?_
        intro x hx
        have hxne : x ≠ nv.1 := fun he => hnotin (he ▸ hx)
        simp [List.mem_cons, hxne]
      · exact hrec.2

theorem fillPara_spans_nil (para : Text) (values : List (Text × Text))
    (hv : ∀ nv ∈ values, nv.1 ≠ [] ∧ ']' ∉ nv.1 ∧ '[' ∉ nv.2)
    (H : ∀ c ∈ scanSpans para, '[' ∉ c)
    (hcover : ∀ c ∈ scanSpans para, c ∈ values.map Prod.fst) :
    scanSpans (fillPara para values) = [] := by
  have hmain := (fillPara_fold_main values para para hv H (fun c hc => hc)).1
  rw [fillPara, hmain, List.filter_eq_nil_iff]
  intro a ha
  simp [hcover a ha]

theorem fillPara_dangling (para : Text) (values : List (Text × Text))
    (hv : ∀ nv ∈ values, nv.1 ≠ [] ∧ ']' ∉ nv.1 ∧ '[' ∉ nv.2)
    (H : ∀ c ∈ scanSpans para, '[' ∉ c)
    (hd : danglingOpen (fillPara para values)) : danglingOpen para :=
  (fillPara_fold_main values para para hv H (fun _ hc => hc)).2 hd

theorem fillPara_no_open : ∀ (values : List (Text × Text)) (para : Text),
    '[' ∉ para → fillPara para values = para := by
  intro values
  induction values with
  | nil => intro para _; rfl
  | cons nv values ih =>
    intro para h
    rw [fillPara, List.foldl_cons, if_neg]
    · exact ih para h
    · rintro ⟨h1, -⟩
      exact h (mem_of_isSubstr _ _ h1 '[' (List.mem_cons_self _ _))

theorem mem_fillFold :
    ∀ (values : List (Text × Text)) (para cur : Text) (a : Char),
      a ∈ values.foldl (fun cur nv =>
          if isSubstr (mkPat nv.1) para ∧ isSubstr (mkPat nv.1) cur then
            replaceAll (mkPat nv.1) nv.2 cur
          else cur) cur →
      a ∈ cur ∨ ∃ nv ∈ values, a ∈ nv.2 := by
  intro values
  induction values with
  | nil =>
    intro para cur a ha
    exact Or.inl ha
  | cons nv values ih =>
    intro para cur a ha
    rw [List.foldl_cons] at ha
    by_cases hcond : isSubstr (mkPat nv.1) para ∧ isSubstr (mkPat nv.1) cur
    · rw [if_pos hcond] at ha
      rcases ih para _ a ha with hm | ⟨q, hq, hqa⟩
      · rcases mem_replaceAll cur.length cur (mkPat nv.1) nv.2 (Nat.le_refl _)
          a hm with h | h
        · exact Or.inl h
        · exact Or.inr ⟨nv, List.mem_cons_self _ _, h⟩
      · exact Or.inr ⟨q, List.mem_cons_of_mem _ hq, hqa⟩
    · rw [if_neg hcond] at ha
      rcases ih para cur a ha with hm | ⟨q, hq, hqa⟩
      · exact Or.inl hm
      · exact Or.inr ⟨q, List.mem_cons_of_mem _ hq, hqa⟩

theorem mem_fillPara (values : List (Text × Text)) (para : Text) (a : Char)
    (ha : a ∈ fillPara para values) : a ∈ para ∨ ∃ nv ∈ values, a ∈ nv.2 :=
  mem_fillFold values para para a ha

theorem takeWhile_append_stop (a w : Text) (h : ']' ∈ a) :
    (a ++ w).takeWhile (fun ch => ch ≠ ']')
      = a.takeWhile (fun ch => ch ≠ ']') := by
  induction a with
  | nil => cases h
  | cons c a ih =>
    by_cases hc : c = ']'
    · subst hc
      simp [List.takeWhile_cons]
    · have hpc : (decide (c ≠ ']')) = true := decide_eq_true hc
      rw [List.cons_append, List.takeWhile_cons, List.takeWhile_cons, hpc,
        if_pos rfl, if_pos rfl]
      rcases List.mem_cons.mp h with h' | h'
      · exact absurd h'.symm hc
      · rw [ih h']

theorem takeWhile_append_pass (a w : Text) (h : ']' ∉ a) :
    (a ++ w).takeWhile (fun ch => ch ≠ ']')
      = a ++ w.takeWhile (fun ch => ch ≠ ']') := by
  induction a with
  | nil => rfl
  | cons c a ih =>
    have hc : c ≠ ']' := fun hcc => h (hcc ▸ List.mem_cons_self _ _)
    have hpc : (decide (c ≠ ']')) = true := decide_eq_true hc
    rw [List.cons_append, List.takeWhile_cons, hpc, if_pos rfl,
      ih (fun hm => h (List.mem_cons_of_mem _ hm)), List.cons_append]

/-- Splitting the scan of `a ++ '\n' :: b` when no span content crosses the
newline: the spans are exactly those of `a` followed by those of `b`. -/
theorem scanSpans_split_nl : ∀ (N : Nat) (a : Text), a.length ≤ N →
    ∀ b : Text, '\n' ∉ a →
    (∀ c ∈ scanSpans (a ++ '\n' :: b), '\n' ∉ c) →
    scanSpans (a ++ '\n' :: b) = scanSpans a ++ scanSpans b := by
  intro N
  induction N with
  | zero =>
    intro a ha b _ _
    rw [List.length_eq_zero.mp (Nat.le_zero.mp ha), List.nil_append,
      scanSpans_cons, if_neg (by decide)]
    rfl
  | succ N ih =>
    intro a ha b hnl H
    match a with
    | [] =>
      rw [List.nil_append, scanSpans_cons, if_neg (by decide)]
      rfl
    | c :: a' =>
      simp only [List.length_cons] at ha
      have hnl' : '\n' ∉ a' := fun hm => hnl (List.mem_cons_of_mem _ hm)
      by_cases hc : c = '['
      · by_cases hx : ']' ∈ a'
        · have htw : ((a' ++ '\n' :: b).takeWhile (fun ch => ch ≠ ']'))
              = a'.takeWhile (fun ch => ch ≠ ']') :=
            takeWhile_append_stop a' ('\n' :: b) hx
          have hlt := takeWhile_lt_of_close_mem a' hx
          by_cases hne : a'.takeWhile (fun ch => ch ≠ ']') ≠ []
          · -- span within a'
            have hsplit := takeWhile_close_split a' hlt
            have hdropj : (a' ++ '\n' :: b).drop
                ((a'.takeWhile (fun ch => ch ≠ ']')).length + 1)
                = a'.drop ((a'.takeWhile (fun ch => ch ≠ ']')).length + 1)
                  ++ '\n' :: b := by
              have h1 : a' ++ '\n' :: b
                  = a'.takeWhile (fun ch => ch ≠ ']')
                    ++ ']' :: (a'.drop
                      ((a'.takeWhile (fun ch => ch ≠ ']')).length + 1)
                        ++ '\n' :: b) := by
                conv_lhs => rw [hsplit]
                rw [List.append_assoc, List.cons_append]
              rw [h1, drop_one_past]
            have hlj : scanSpans ((c :: a') ++ '\n' :: b)
                = a'.takeWhile (fun ch => ch ≠ ']')
                  :: scanSpans (a'.drop
                    ((a'.takeWhile (fun ch => ch ≠ ']')).length + 1)
                      ++ '\n' :: b) := by
              rw [List.cons_append, scanSpans_cons, if_pos hc, htw,
                if_pos ⟨hne, by
                  rw [List.length_append, List.length_cons]
                  omega⟩, hdropj]
            have hla : scanSpans (c :: a')
                = a'.takeWhile (fun ch => ch ≠ ']')
                  :: scanSpans (a'.drop
                    ((a'.takeWhile (fun ch => ch ≠ ']')).length + 1)) := by
              rw [scanSpans_cons, if_pos hc, if_pos ⟨hne, hlt⟩]
            have hd := List.length_drop
              ((a'.takeWhile (fun ch => ch ≠ ']')).length + 1) a'
            have hnd : '\n' ∉ a'.drop
                ((a'.takeWhile (fun ch => ch ≠ ']')).length + 1) := by
              intro hm
              exact hnl' (List.drop_subset _ _ hm)
            have hH' : ∀ c' ∈ scanSpans (a'.drop
                ((a'.takeWhile (fun ch => ch ≠ ']')).length + 1) ++ '\n' :: b),
                  '\n' ∉ c' := by
              intro c' hc'
              exact H c' (by rw [hlj]; exact List.mem_cons_of_mem _ hc')
            rw [hlj, hla, ih _ (by omega) b hnd hH', List.cons_append]
          · -- head fails immediately inside a'
            push_neg at hne
            have hlj : scanSpans ((c :: a') ++ '\n' :: b)
                = scanSpans (a' ++ '\n' :: b) := by
              rw [List.cons_append, scanSpans_cons, if_pos hc, htw, hne,
                if_neg (by simp)]
            have hla : scanSpans (c :: a') = scanSpans a' := by
              rw [scanSpans_cons, if_pos hc, hne, if_neg (by simp)]
            have hH' : ∀ c' ∈ scanSpans (a' ++ '\n' :: b), '\n' ∉ c' := by
              intro c' hc'
              exact H c' (by rw [hlj]; exact hc')
            rw [hlj, hla, ih a' (by omega) b hnl' hH']
        · -- no close in a'
          by_cases hxb : ']' ∈ b
          · -- a cross-newline span would exist: contradicts the hypothesis
            exfalso
            have htw : ((a' ++ '\n' :: b).takeWhile (fun ch => ch ≠ ']'))
                = a' ++ '\n' :: b.takeWhile (fun ch => ch ≠ ']') := by
              rw [takeWhile_append_pass a' _ hx, List.takeWhile_cons]
              simp
            have hltb := takeWhile_lt_of_close_mem b hxb
            have hmem : (a' ++ '\n' :: b.takeWhile (fun ch => ch ≠ ']'))
                ∈ scanSpans ((c :: a') ++ '\n' :: b) := by
              rw [List.cons_append, scanSpans_cons, if_pos hc, htw,
                if_pos ⟨by simp, by
                  rw [List.length_append, List.length_append,
                    List.length_cons, List.length_cons]
                  omega⟩]
              exact List.mem_cons_self _ _
            exact H _ hmem (List.mem_append_right a'
              (List.mem_cons_self _ _))
          · -- no close anywhere: both scans fail at the head
            have htwa : a'.takeWhile (fun ch => ch ≠ ']') = a' :=
              takeWhile_eq_self_of_no_close a' hx
            have htwb : b.takeWhile (fun ch => ch ≠ ']') = b :=
              takeWhile_eq_self_of_no_close b hxb
            have htw : ((a' ++ '\n' :: b).takeWhile (fun ch => ch ≠ ']'))
                = a' ++ '\n' :: b := by
              rw [takeWhile_append_pass a' _ hx, List.takeWhile_cons]
              have h2 : (decide ('\n' ≠ ']')) = true := by decide
              rw [h2, if_pos rfl, htwb]
            have hlj : scanSpans ((c :: a') ++ '\n' :: b)
                = scanSpans (a' ++ '\n' :: b) := by
              rw [List.cons_append, scanSpans_cons, if_pos hc, htw,
                if_neg (by simp)]
            have hla : scanSpans (c :: a') = scanSpans a' := by
              rw [scanSpans_cons, if_pos hc, htwa, if_neg (by simp)]
            have hH' : ∀ c' ∈ scanSpans (a' ++ '\n' :: b), '\n' ∉ c' := by
              intro c' hc'
              exact H c' (by rw [hlj]; exact hc')
            rw [hlj, hla, ih a' (by omega) b hnl' hH']
      · have hlj : scanSpans ((c :: a') ++ '\n' :: b)
            = scanSpans (a' ++ '\n' :: b) := by
          rw [List.cons_append, scanSpans_cons, if_neg hc]
        have hla : scanSpans (c :: a') = scanSpans a' := by
          rw [scanSpans_cons, if_neg hc]
        have hH' : ∀ c' ∈ scanSpans (a' ++ '\n' :: b), '\n' ∉ c' := by
          intro c' hc'
          exact H c' (by rw [hlj]; exact hc')
        rw [hlj, hla, ih a' (by omega) b hnl' hH']

theorem joinNL_cons_of_ne (u : Text) (us : Doc) (h : us ≠ []) :
    joinNL (u :: us) = u ++ '\n' :: joinNL us := by
  match us with
  | u' :: us' => rfl

/-- With newline-free paragraphs and no newline inside any span content,
the scan of the joined text is the concatenation of the per-paragraph
scans. -/
theorem scanSpans_joinNL_eq : ∀ us : Doc,
    (∀ u ∈ us, '\n' ∉ u) →
    (∀ c ∈ scanSpans (joinNL us), '\n' ∉ c) →
    scanSpans (joinNL us) = (us.map scanSpans).flatten := by
  intro us
  induction us with
  | nil => intro _ _; rfl
  | cons u us' ih =>
    intro hus H
    match us' with
    | [] =>
      show scanSpans u = ([scanSpans u]).flatten
      simp
    | u' :: us'' =>
      rw [joinNL_cons_of_ne u (u' :: us'') (by simp)] at H ⊢
      have hsplit := scanSpans_split_nl u.length u (Nat.le_refl _)
        (joinNL (u' :: us'')) (hus u (List.mem_cons_self _ _)) H
      rw [hsplit, List.map_cons, List.flatten_cons]
      refine congrArg (scanSpans u ++ ·) ?_
      refine ih (fun w hw => hus w (List.mem_cons_of_mem _ hw)) ?_
      intro c hc
      exact H c (by rw [hsplit]; exact List.mem_append_right _ hc)

theorem mem_first_split (a : Char) : ∀ l : Text, a ∈ l →
    ∃ w z, l = w ++ a :: z ∧ a ∉ w := by
  intro l
  induction l with
  | nil => intro h; cases h
  | cons c l ih =>
    intro h
    by_cases hc : c = a
    · exact ⟨[], l, by rw [hc]; rfl, by simp⟩
    · rcases List.mem_cons.mp h with h' | h'
      · exact absurd h'.symm hc
      · obtain ⟨w, z, rfl, hw⟩ := ih h'
        refine ⟨c :: w, z, rfl, ?_⟩
        intro hm
        rcases List.mem_cons.mp hm with h'' | h''
        · exact hc h''.symm
        · exact hw h''

theorem mem_joinNL (a : Char) : ∀ (us : Doc) (u : Text), u ∈ us → a ∈ u →
    a ∈ joinNL us := by
  intro us
  induction us with
  | nil => intro u hu; cases hu
  | cons u' us' ih =>
    intro u hu ha
    match us' with
    | [] =>
      rcases List.mem_singleton.mp hu with rfl
      exact ha
    | w :: ws =>
      rw [joinNL_cons_of_ne _ _ (by simp)]
      rcases List.mem_cons.mp hu with rfl | hu'
      · exact List.mem_append_left _ ha
      · exact List.mem_append_right _
          (List.mem_cons_of_mem _ (ih u hu' ha))

theorem mem_joinNL_inv (a : Char) : ∀ us : Doc, a ∈ joinNL us →
    (∃ u ∈ us, a ∈ u) ∨ a = '\n' := by
  intro us
  induction us with
  | nil => intro h; cases h
  | cons u us' ih =>
    intro h
    match us' with
    | [] => exact Or.inl ⟨u, List.mem_singleton.mpr rfl, h⟩
    | w :: ws =>
      rw [joinNL_cons_of_ne _ _ (by simp)] at h
      rcases List.mem_append.mp h with h' | h'
      · exact Or.inl ⟨u, List.mem_cons_self _ _, h'⟩
      · rcases List.mem_cons.mp h' with rfl | h''
        · exact Or.inr rfl
        · rcases ih h'' with ⟨u', hu', ha⟩ | rfl
          · exact Or.inl ⟨u', List.mem_cons_of_mem _ hu', ha⟩
          · exact Or.inr rfl

theorem joinNL_append_middle : ∀ (A : Doc) (u : Text) (B : Doc), B ≠ [] →
    ∃ pre, joinNL (A ++ u :: B) = pre ++ (u ++ '\n' :: joinNL B) := by
  intro A
  induction A with
  | nil =>
    intro u B hB
    exact ⟨[], by rw [List.nil_append, joinNL_cons_of_ne u B hB, List.nil_append]⟩
  | cons a A' ih =>
    intro u B hB
    obtain ⟨pre, hpre⟩ := ih u B hB
    refine ⟨a ++ '\n' :: pre, ?_⟩
    rw [List.cons_append, joinNL_cons_of_ne a (A' ++ u :: B)
      (by simp), hpre]
    simp

/-- A complete bracketed span occurring anywhere in the text. -/
def spanPattern (t : Text) : Prop :=
  ∃ x m z, t = x ++ '[' :: (m ++ ']' :: z) ∧ m ≠ [] ∧ ']' ∉ m

theorem spanPattern_cons (c : Char) (l : Text) (hc : c ≠ '[')
    (h : spanPattern (c :: l)) : spanPattern l := by
  rcases h with ⟨x, m, z, heq, hm, hmc⟩
  match x, heq with
  | [], heq =>
    rw [List.nil_append] at heq
    exact absurd ((List.cons.injEq _ _ _ _).mp heq).1 hc
  | a :: x', heq =>
    rw [List.cons_append] at heq
    rcases (List.cons.injEq _ _ _ _).mp heq with ⟨rfl, rfl⟩
    exact ⟨x', m, z, rfl, hm, hmc⟩

theorem spanPattern_split (a b : Text) (h : spanPattern (a ++ b)) :
    spanPattern a ∨ spanPattern b ∨ (danglingOpen a ∧ ']' ∈ b) := by
  rcases h with ⟨x, m, z, heq, hm, hmc⟩
  rcases List.append_eq_append_iff.mp heq with ⟨w, hx, hb⟩ | ⟨w, ha, hd⟩
  · exact Or.inr (Or.inl ⟨w, m, z, hb, hm, hmc⟩)
  · match w, hd with
    | [], hd =>
      rw [List.nil_append] at hd
      exact Or.inr (Or.inl ⟨[], m, z, hd.symm, hm, hmc⟩)
    | b0 :: w', hd =>
      rcases (List.cons.injEq _ _ _ _).mp hd with ⟨rfl, hd2⟩
      rcases List.append_eq_append_iff.mp hd2.symm with
        ⟨s, hm_eq, hb_eq⟩ | ⟨s, hw_eq, hz_eq⟩
      · refine Or.inr (Or.inr ⟨⟨x, w', ha, ?_⟩, ?_⟩)
        · intro hmem
          exact hmc (hm_eq ▸ List.mem_append_left s hmem)
        · rw [hb_eq]
          exact List.mem_append_right _ (List.mem_cons_self _ _)
      · match s, hz_eq with
        | [], hz_eq =>
          rw [List.nil_append] at hz_eq
          refine Or.inr (Or.inr ⟨⟨x, w', ha, ?_⟩, ?_⟩)
          · intro hmem
            rw [hw_eq, List.append_nil] at hmem
            exact hmc hmem
          · rw [← hz_eq]
            exact List.mem_cons_self _ _
        | s0 :: s', hz_eq =>
          have hinj := (List.cons.injEq _ _ _ _).mp hz_eq
          left
          refine ⟨x, m, s', ?_, hm, hmc⟩
          rw [ha, hw_eq, ← hinj.1]

theorem spanPattern_joinNL : ∀ us : Doc, spanPattern (joinNL us) →
    (∃ u ∈ us, spanPattern u) ∨
    ∃ A u B, us = A ++ u :: B ∧ danglingOpen u ∧ ∃ u' ∈ B, ']' ∈ u' := by
  intro us
  induction us with
  | nil =>
    intro h
    rcases h with ⟨x, m, z, heq, -, -⟩
    rcases List.append_eq_nil.mp heq.symm with ⟨-, h2⟩
    cases h2
  | cons u us' ih =>
    intro h
    match us' with
    | [] => exact Or.inl ⟨u, List.mem_singleton.mpr rfl, h⟩
    | w :: ws =>
      rw [joinNL_cons_of_ne _ _ (by simp)] at h
      rcases spanPattern_split _ _ h with hu | hrest | ⟨hdang, hclose⟩
      · exact Or.inl ⟨u, List.mem_cons_self _ _, hu⟩
      · have hj : spanPattern (joinNL (w :: ws)) :=
          spanPattern_cons '\n' _ (by decide) hrest
        rcases ih hj with ⟨u', hu', hp⟩ | ⟨A, u₀, B, heq, hd, u', hu', hc⟩
        · exact Or.inl ⟨u', List.mem_cons_of_mem _ hu', hp⟩
        · exact Or.inr ⟨u :: A, u₀, B, by rw [heq]; rfl, hd, u', hu', hc⟩
      · rcases List.mem_cons.mp hclose with habs | hclose'
        · cases habs
        · rcases mem_joinNL_inv ']' (w :: ws) hclose' with ⟨u', hu', hc⟩ | habs
          · exact Or.inr ⟨[], u, w :: ws, rfl, hdang, u', hu', hc⟩
          · cases habs

/-- When no span content contains a nested `[`, every bracketed pattern in
the text is found by the scanner. -/
theorem mem_scanSpans_of_pattern : ∀ (N : Nat) (x : Text), x.length ≤ N →
    ∀ (m z : Text), ']' ∉ m → m ≠ [] →
      (∀ c ∈ scanSpans (x ++ '[' :: (m ++ ']' :: z)), '[' ∉ c) →
      m ∈ scanSpans (x ++ '[' :: (m ++ ']' :: z)) := by
  intro N
  induction N with
  | zero =>
    intro x hx m z hmc hm H
    rw [List.length_eq_zero.mp (Nat.le_zero.mp hx), List.nil_append,
      scanSpans_cons, if_pos rfl, takeWhile_closed_append m z hmc,
      if_pos ⟨hm, by simp⟩]
    exact List.mem_cons_self _ _
  | succ N ih =>
    intro x hx m z hmc hm H
    match x with
    | [] =>
      rw [List.nil_append, scanSpans_cons, if_pos rfl,
        takeWhile_closed_append m z hmc, if_pos ⟨hm, by simp⟩]
      exact List.mem_cons_self _ _
    | c :: x' =>
      simp only [List.length_cons] at hx
      rw [List.cons_append]
      by_cases hc : c = '['
      · by_cases hcx : ']' ∈ x'
        · have htw : ((x' ++ '[' :: (m ++ ']' :: z)).takeWhile
              (fun ch => ch ≠ ']')) = x'.takeWhile (fun ch => ch ≠ ']') :=
            takeWhile_append_stop x' _ hcx
          have hlt := takeWhile_lt_of_close_mem x' hcx
          by_cases hne : x'.takeWhile (fun ch => ch ≠ ']') ≠ []
          · have hsplit := takeWhile_close_split x' hlt
            have hdropj : (x' ++ '[' :: (m ++ ']' :: z)).drop
                ((x'.takeWhile (fun ch => ch ≠ ']')).length + 1)
                = x'.drop ((x'.takeWhile (fun ch => ch ≠ ']')).length + 1)
                  ++ '[' :: (m ++ ']' :: z) := by
              have h1 : x' ++ '[' :: (m ++ ']' :: z)
                  = x'.takeWhile (fun ch => ch ≠ ']')
                    ++ ']' :: (x'.drop
                      ((x'.takeWhile (fun ch => ch ≠ ']')).length + 1)
                        ++ '[' :: (m ++ ']' :: z)) := by
                conv_lhs => rw [hsplit]
                rw [List.append_assoc, List.cons_append]
              rw [h1, drop_one_past]
            have hscan : scanSpans (c :: (x' ++ '[' :: (m ++ ']' :: z)))
                = x'.takeWhile (fun ch => ch ≠ ']')
                  :: scanSpans (x'.drop
                    ((x'.takeWhile (fun ch => ch ≠ ']')).length + 1)
                      ++ '[' :: (m ++ ']' :: z)) := by
              rw [scanSpans_cons, if_pos hc, htw,
                if_pos ⟨hne, by
                  rw [List.length_append, List.length_cons]
                  omega⟩, hdropj]
            rw [hscan]
            have hd := List.length_drop
              ((x'.takeWhile (fun ch => ch ≠ ']')).length + 1) x'
            refine List.mem_cons_of_mem _ (ih _ (by omega) m z hmc hm ?_)
            intro c' hc'
            exact H c' (by
              rw [List.cons_append, hscan]
              exact List.mem_cons_of_mem _ hc')
          · push_neg at hne
            have hscan : scanSpans (c :: (x' ++ '[' :: (m ++ ']' :: z)))
                = scanSpans (x' ++ '[' :: (m ++ ']' :: z)) := by
              rw [scanSpans_cons, if_pos hc, htw, hne, if_neg (by simp)]
            rw [hscan]
            refine ih x' (by omega) m z hmc hm ?_
            intro c' hc'
            exact H c' (by rw [List.cons_append, hscan]; exact hc')
        · -- no close in x': the head span swallows the pattern's open
          -- bracket, contradicting bracket-free span contents
          exfalso
          have htw : ((x' ++ '[' :: (m ++ ']' :: z)).takeWhile
              (fun ch => ch ≠ ']')) = x' ++ '[' :: m := by
            rw [takeWhile_append_pass x' _ hcx, List.takeWhile_cons]
            have h2 : (decide ('[' ≠ ']')) = true := by decide
            rw [h2, if_pos rfl, takeWhile_closed_append m z hmc]
          have hmem : (x' ++ '[' :: m)
              ∈ scanSpans ((c :: x') ++ '[' :: (m ++ ']' :: z)) := by
            rw [List.cons_append, scanSpans_cons, if_pos hc, htw,
              if_pos ⟨by simp, by
                simp only [List.length_append, List.length_cons]
                omega⟩]
            exact List.mem_cons_self _ _
          exact H _ hmem (List.mem_append_right x' (List.mem_cons_self _ _))
      · have hscan : scanSpans (c :: (x' ++ '[' :: (m ++ ']' :: z)))
            = scanSpans (x' ++ '[' :: (m ++ ']' :: z)) := by
          rw [scanSpans_cons, if_neg hc]
        rw [hscan]
        refine ih x' (by omega) m z hmc hm ?_
        intro c' hc'
        exact H c' (by rw [List.cons_append, hscan]; exact hc')

theorem scanSpans_nil_of_no_pattern (t : Text) (h : ¬ spanPattern t) :
    scanSpans t = [] := by
  cases hs : scanSpans t with
  | nil => rfl
  | cons c rest =>
    exfalso
    have hmem : c ∈ scanSpans t := by rw [hs]; exact List.mem_cons_self _ _
    obtain ⟨hne, hcl, x, z, hxz⟩ :=
      scanSpans_mem_spec t.length t (Nat.le_refl _) c hmem
    exact h ⟨x, c, z, hxz, hne, hcl⟩

theorem sublist_split : ∀ (rs A B : Doc) (r : Text),
    List.Sublist (A ++ r :: B) rs →
    ∃ A' B', rs = A' ++ r :: B' ∧ List.Sublist B B' := by
  intro rs
  induction rs with
  | nil =>
    intro A B r h
    have h0 := List.eq_nil_of_sublist_nil h
    rcases List.append_eq_nil.mp h0 with ⟨-, h2⟩
    cases h2
  | cons s rs' ih =>
    intro A B r h
    match A with
    | [] =>
      rw [List.nil_append] at h
      cases h with
      | cons _ h' =>
        obtain ⟨A', B', rfl, hB⟩ := ih [] B r (by rw [List.nil_append]; exact h')
        exact ⟨s :: A', B', rfl, hB⟩
      | cons₂ _ h' => exact ⟨[], rs', rfl, h'⟩
    | a :: A'' =>
      rw [List.cons_append] at h
      cases h with
      | cons _ h' =>
        obtain ⟨A', B', rfl, hB⟩ := ih (a :: A'') B r
          (by rw [List.cons_append]; exact h')
        exact ⟨s :: A', B', rfl, hB⟩
      | cons₂ _ h' =>
        obtain ⟨A', B', rfl, hB⟩ := ih A'' B r h'
        exact ⟨s :: A', B', rfl, hB⟩

theorem map_split (f : Text → Text) : ∀ (l : Doc) (A : Doc) (r : Text) (B : Doc),
    l.map f = A ++ r :: B →
    ∃ A₀ u B₀, l = A₀ ++ u :: B₀ ∧ f u = r ∧ A₀.map f = A ∧ B₀.map f = B := by
  intro l
  induction l with
  | nil =>
    intro A r B h
    rw [List.map_nil] at h
    rcases List.append_eq_nil.mp h.symm with ⟨-, h2⟩
    cases h2
  | cons a l ih =>
    intro A r B h
    rw [List.map_cons] at h
    match A, h with
    | [], h =>
      rw [List.nil_append] at h
      rcases (List.cons.injEq _ _ _ _).mp h with ⟨hf, hmap⟩
      exact ⟨[], a, l, rfl, hf, rfl, hmap⟩
    | a' :: A', h =>
      rw [List.cons_append] at h
      rcases (List.cons.injEq _ _ _ _).mp h with ⟨hf, hmap⟩
      obtain ⟨A₀, u, B₀, rfl, hfu, hA, hB⟩ := ih A' r B hmap
      exact ⟨a :: A₀, u, B₀, rfl, hfu, by rw [List.map_cons, hA, hf], hB⟩

theorem mem_pyStrip (a : Char) (t : Text) (h : a ∈ pyStrip t) : a ∈ t := by
  rw [pyStrip] at h
  have h1 := List.mem_reverse.mp h
  have h2 := (List.dropWhile_sublist (l := (t.dropWhile isPyWS).reverse)
    (p := isPyWS)).subset h1
  have h3 := List.mem_reverse.mp h2
  exact (List.dropWhile_sublist (l := t) (p := isPyWS)).subset h3

theorem pyStrip_nil_all_ws (u : Text) (h : pyStrip u = []) :
    ∀ a ∈ u, isPyWS a = true := by
  rw [pyStrip, List.reverse_eq_nil_iff, List.dropWhile_eq_nil_iff] at h
  have hdrop : ∀ a ∈ u.dropWhile isPyWS, isPyWS a = true := by
    intro a ha
    exact h a (List.mem_reverse.mpr ha)
  intro a ha
  rw [← List.takeWhile_append_dropWhile (p := isPyWS) (l := u)] at ha
  rcases List.mem_append.mp ha with hm | hm
  · exact List.mem_takeWhile_imp hm
  · exact hdrop a hm

/-! ## Theorems: C7 -/

/-- Counterexample for C7: the document `"a [ Date ] b"` yields the single
placeholder `Date` (extraction trims the bracket content), but rendering
with the bracket-free value `2025-01-01` leaves the padded bracket span
`[ Date ]` untouched, so re-extraction still finds one placeholder. -/
theorem render_extract_cex :
    ((find_placeholders (extract_document_text ["a [ Date ] b".toList])).map
      Placeholder.name = ["Date".toList]) ∧
    ('[' ∉ "2025-01-01".toList ∧ ']' ∉ "2025-01-01".toList) ∧
    (find_placeholders (extract_document_text
        (fill_placeholders ["a [ Date ] b".toList]
          [("Date".toList, "2025-01-01".toList)]))).length = 1 := by
  refine ⟨?_, ⟨?_, ?_⟩, ?_⟩
  · decide
  · decide
  · decide
  · decide

/-- C7 (amended): if every bracketed span of the document's extracted text
has a content that is exactly one of the extracted placeholder names (no
padding whitespace inside the brackets, no case-mismatched duplicates),
contains no nested `[` and no newline, and the paragraphs are
newline-free, then rendering with bracket-free values for all extracted
names and re-extracting yields zero placeholders. -/
theorem render_extract_roundtrip (ds : Doc) (values : List (Text × Text))
    (hpar : ∀ u ∈ ds, '\n' ∉ u)
    (hkeys : values.map Prod.fst
      = (find_placeholders (extract_document_text ds)).map Placeholder.name)
    (hvals : ∀ nv ∈ values, '[' ∉ nv.2 ∧ ']' ∉ nv.2)
    (hspans : ∀ c ∈ scanSpans (extract_document_text ds),
      '[' ∉ c ∧ '\n' ∉ c ∧ c ∈ values.map Prod.fst) :
    find_placeholders (extract_document_text (fill_placeholders ds values))
      = [] := by
  -- Side conditions on the names
  have hnames : ∀ n ∈ values.map Prod.fst, n ≠ [] ∧ ']' ∉ n := by
    intro n hn
    rw [hkeys] at hn
    have h1 : (find_placeholders (extract_document_text ds)).map
        Placeholder.name = dedupCI (bracketNames (extract_document_text ds)) [] :=
      findPHAux_names _ _ []
    rw [h1] at hn
    have h2 := dedupCI_subset _ [] n hn
    rcases List.mem_filter.mp h2 with ⟨h3, h4⟩
    rcases List.mem_map.mp h3 with ⟨sp, hsp, rfl⟩
    refine ⟨by simpa using h4, ?_⟩
    intro hmem
    have h5 : sp.2 ∈ scanSpans (extract_document_text ds) := by
      rw [← scanSpansPos_snd (extract_document_text ds).length _
        (Nat.le_refl _) 0]
      exact List.mem_map.mpr ⟨sp, hsp, rfl⟩
    obtain ⟨-, hncl, -⟩ :=
      scanSpans_mem_spec (extract_document_text ds).length _
        (Nat.le_refl _) sp.2 h5
    exact hncl (mem_pyStrip _ _ hmem)
  have hcond : ∀ nv ∈ values, nv.1 ≠ [] ∧ ']' ∉ nv.1 ∧ '[' ∉ nv.2 := by
    intro nv hnv
    obtain ⟨h1, h2⟩ := hnames nv.1 (List.mem_map.mpr ⟨nv, hnv, rfl⟩)
    exact ⟨h1, h2, (hvals nv hnv).1⟩
  -- Per-paragraph span hypotheses
  have hunits_nl : ∀ u ∈ ds.filter (fun u => pyStrip u ≠ []), '\n' ∉ u :=
    fun u hu => hpar u (List.mem_of_mem_filter hu)
  have hJsplit : scanSpans (extract_document_text ds)
      = ((ds.filter (fun u => pyStrip u ≠ [])).map scanSpans).flatten :=
    scanSpans_joinNL_eq (ds.filter (fun u => pyStrip u ≠ []))
      hunits_nl (fun c hc => (hspans c hc).2.1)
  have hperunit : ∀ u ∈ ds.filter (fun u => pyStrip u ≠ []),
      ∀ c ∈ scanSpans u, c ∈ scanSpans (extract_document_text ds) := by
    intro u hu c hc
    rw [hJsplit]
    exact List.mem_flatten.mpr ⟨scanSpans u, List.mem_map.mpr ⟨u, hu, rfl⟩, hc⟩
  -- Each rendered paragraph has no spans left
  have hrsnil : ∀ u ∈ ds, scanSpans (fillPara u values) = [] := by
    intro u hu
    by_cases hblank : pyStrip u = []
    · have hnb : '[' ∉ u := by
        intro hm
        exact absurd (pyStrip_nil_all_ws u hblank '[' hm) (by decide)
      rw [fillPara_no_open values u hnb]
      exact scanSpans_nil_of_no_open u hnb
    · have huF : u ∈ ds.filter (fun u => pyStrip u ≠ []) :=
        List.mem_filter.mpr ⟨hu, by simpa using hblank⟩
      refine fillPara_spans_nil u values hcond ?_ ?_
      · exact fun c hc => (hspans c (hperunit u huF c hc)).1
      · exact fun c hc => (hspans c (hperunit u huF c hc)).2.2
  -- The joined rendered text has no span pattern
  have hscan' : scanSpans (extract_document_text
      (fill_placeholders ds values)) = [] := by
    refine scanSpans_nil_of_no_pattern _ ?_
    intro hP
    have hPj : spanPattern (joinNL ((ds.map (fun para => fillPara para values)).filter
        (fun u => pyStrip u ≠ []))) := hP
    rcases spanPattern_joinNL _ hPj with ⟨r, hrF, hpr⟩ |
      ⟨A, r, B, hFR, hdang, r', hr'B, hclose⟩
    · -- a whole span inside one rendered paragraph
      have hrrs : r ∈ ds.map (fun para => fillPara para values) :=
        List.mem_of_mem_filter hrF
      rcases List.mem_map.mp hrrs with ⟨u, hu, rfl⟩
      rcases hpr with ⟨x, m, z, heq, hm, hmc⟩
      have h0 : scanSpans (x ++ '[' :: (m ++ ']' :: z)) = [] := by
        rw [← heq]
        exact hrsnil u hu
      have hmem := mem_scanSpans_of_pattern x.length x (Nat.le_refl _)
        m z hmc hm (by rw [h0]; intro c hc; cases hc)
      rw [h0] at hmem
      cases hmem
    · -- a dangling bracket in one rendered paragraph closed by a later one
      have hsub : List.Sublist (A ++ r :: B)
          (ds.map (fun para => fillPara para values)) := by
        rw [← hFR]
        exact List.filter_sublist _
      obtain ⟨A₁, B₁, hrs, hBB⟩ := sublist_split _ A B r hsub
      obtain ⟨A₀, u, B₀, hds, hfu, hA₀, hB₀⟩ :=
        map_split (fun para => fillPara para values) ds A₁ r B₁ hrs
      have hr'B₁ : r' ∈ B₁ := hBB.subset hr'B
      have hr'B₀ : r' ∈ B₀.map (fun para => fillPara para values) := by
        rw [hB₀]
        exact hr'B₁
      rcases List.mem_map.mp hr'B₀ with ⟨u', hu'B₀, rfl⟩
      -- transfer the close bracket and the dangling open to the source
      have hcl_u' : ']' ∈ u' := by
        rcases mem_fillPara values u' ']' hclose with h | ⟨nv, hnv, hmm⟩
        · exact h
        · exact absurd hmm (hvals nv hnv).2
      have hop_r : '[' ∈ fillPara u values := by
        rw [hfu]
        rcases hdang with ⟨x, y, heq, -⟩
        rw [heq]
        exact List.mem_append_right x (List.mem_cons_self _ _)
      have hop_u : '[' ∈ u := by
        rcases mem_fillPara values u '[' hop_r with h | ⟨nv, hnv, hmm⟩
        · exact h
        · exact absurd hmm (hvals nv hnv).1
      have hu_mem : u ∈ ds := by
        rw [hds]
        exact List.mem_append_right A₀ (List.mem_cons_self _ _)
      have hu_nb : pyStrip u ≠ [] := by
        intro hb
        exact absurd (pyStrip_nil_all_ws u hb '[' hop_u) (by decide)
      have hu'_nb : pyStrip u' ≠ [] := by
        intro hb
        exact absurd (pyStrip_nil_all_ws u' hb ']' hcl_u') (by decide)
      have huF : u ∈ ds.filter (fun u => pyStrip u ≠ []) :=
        List.mem_filter.mpr ⟨hu_mem, by simpa using hu_nb⟩
      have hdang_u : danglingOpen u := by
        refine fillPara_dangling u values hcond ?_ ?_
        · exact fun c hc => (hspans c (hperunit u huF c hc)).1
        · rw [hfu]
          exact hdang
      -- order-preserving decomposition of the filtered source paragraphs
      have hFds : ds.filter (fun u => pyStrip u ≠ [])
          = A₀.filter (fun u => pyStrip u ≠ [])
            ++ u :: B₀.filter (fun u => pyStrip u ≠ []) := by
        rw [hds, List.filter_append, List.filter_cons]
        simp [hu_nb]
      have hu'F : u' ∈ B₀.filter (fun u => pyStrip u ≠ []) :=
        List.mem_filter.mpr ⟨hu'B₀, by simpa using hu'_nb⟩
      have hBne : B₀.filter (fun u => pyStrip u ≠ []) ≠ [] :=
        List.ne_nil_of_mem hu'F
      obtain ⟨pre, hJ⟩ := joinNL_append_middle
        (A₀.filter (fun u => pyStrip u ≠ [])) u
        (B₀.filter (fun u => pyStrip u ≠ [])) hBne
      rcases hdang_u with ⟨x, y, hu_eq, hy⟩
      have hclJ : ']' ∈ joinNL (B₀.filter (fun u => pyStrip u ≠ [])) :=
        mem_joinNL ']' _ u' hu'F hcl_u'
      obtain ⟨w, z', hwz, hwnot⟩ := mem_first_split ']' _ hclJ
      have hJeq : extract_document_text ds
          = (pre ++ x) ++ '[' :: ((y ++ '\n' :: w) ++ ']' :: z') := by
        show joinNL (ds.filter (fun u => pyStrip u ≠ [])) = _
        rw [hFds, hJ, hu_eq, hwz]
        simp
      have hm_ne : y ++ '\n' :: w ≠ [] := by simp
      have hm_cl : ']' ∉ y ++ '\n' :: w := by
        intro hmem
        rcases List.mem_append.mp hmem with h | h
        · exact hy h
        · rcases List.mem_cons.mp h with h' | h'
          · cases h'
          · exact hwnot h'
      have hmem := mem_scanSpans_of_pattern (pre ++ x).length (pre ++ x)
        (Nat.le_refl _) (y ++ '\n' :: w) z' hm_cl hm_ne
        (by
          intro c hc
          rw [← hJeq] at hc
          exact (hspans c hc).1)
      rw [← hJeq] at hmem
      have := (hspans _ hmem).2.1
      exact this (List.mem_append_right y (List.mem_cons_self _ _))
  -- From no spans to no placeholders
  have hpos : scanSpansPos (extract_document_text
      (fill_placeholders ds values)) 0 = [] := by
    have hmap := scanSpansPos_snd (extract_document_text
      (fill_placeholders ds values)).length _ (Nat.le_refl _) 0
    rw [hscan'] at hmap
    exact List.map_eq_nil_iff.mp hmap
  show findPHAux _ (scanSpansPos (extract_document_text
    (fill_placeholders ds values)) 0) [] = []
  rw [hpos]
  rfl

/-- Witness for C7's amended theorem: a two-paragraph document whose
spans are exactly its extracted names, rendered with bracket-free
values, re-extracts to nothing. -/
theorem render_extract_roundtrip_witness :
    find_placeholders (extract_document_text
      (fill_placeholders ["x [Date] y".toList, "z [Name] w".toList]
        [("Date".toList, "2025-01-01".toList),
         ("Name".toList, "Jane Doe".toList)])) = [] := by
  refine render_extract_roundtrip
    ["x [Date] y".toList, "z [Name] w".toList]
    [("Date".toList, "2025-01-01".toList), ("Name".toList, "Jane Doe".toList)]
    ?_ ?_ ?_ ?_
  · decide
  · decide
  · decide
  · decide
